import Mathlib

/-!
Verification of the Uta lyric-conversion core (src/main.rs).

The development shallowly embeds the conversion layer of the program:
the timestamp translator `ttml_timetag_to_lrc_timetag`, the lyric
synthesizer `ttml_to_lrc`, and the canonical XML formatting path
`nice_xml`.  Rust `Result` values become an explicit outcome type that
also records panics (`unwrap` / `expect` on a failed value), machine
integers become `Nat` with explicit `% 2^32` where 32-bit wrap-around
matters, and the two anchored regular expressions become executable
structural matchers with the same anchored language and the same
capture-group assignment.

The external collaborators (the `xmlem` DOM with its query surface and
pretty printer, and the `lrc` time-tag / lyric-document library) are not
part of the repository; they are modelled from the specification's
description of their contracts, as marked on each such definition.
-/

/-- Outcome of running a piece of Rust code that can return a value,
return a typed error (`Result::Err`), or abort with an unrecoverable
panic (`unwrap` / `expect` / `bail` never produces the last one;
`unwrap` on `None` does). -/
inductive ROutcome (α : Type) where
  | ok : α → ROutcome α
  | err : String → ROutcome α
  | fault : String → ROutcome α
deriving Repr, DecidableEq

/-- Message used for the outcome of `Option::unwrap` applied to `None`. -/
def unwrapNoneMsg : String := "called Option::unwrap on a None value"

/-- Largest value of Rust's `u32`. -/
def u32Max : Nat := 4294967295

/-- Numeric value of a decimal digit character. -/
def charDigit (c : Char) : Nat := c.toNat - 48

/-- Decimal value of a digit string, most significant digit first
(the reading Rust's `str::parse::<u32>` performs, before its range
check). -/
def natValue (cs : List Char) : Nat :=
  List.foldl (fun a c => a * 10 + charDigit c) 0 cs

/-- Embedding of `str::parse::<u32>()`: all inputs we feed it are
nonempty all-digit strings, so the only failure mode left is the `u32`
range check. -/
def parseU32 (cs : List Char) : Option Nat :=
  if natValue cs ≤ u32Max then some (natValue cs) else none

/-- Decimal digit character for a value below ten. -/
def digitCh (n : Nat) : Char := Char.ofNat (48 + n)

/-- Digit expansion of a natural number, fuel-driven so that it stays
structurally recursive (fuel `n + 1` always suffices). -/
def decDigitsAux : Nat → Nat → List Char
  | 0, _ => []
  | fuel + 1, n =>
    if n < 10 then [digitCh n]
    else decDigitsAux fuel (n / 10) ++ [digitCh (n % 10)]

/-- Decimal digit string of a natural number, as Rust's `{}` format
specifier prints an unsigned integer. -/
def decDigits (n : Nat) : List Char := decDigitsAux (n + 1) n

/-- Digit string of a natural number zero-padded to width two, as
Rust's `{:02}` format specifier prints it. -/
def pad2L (n : Nat) : List Char :=
  if n < 10 then '0' :: decDigits n else decDigits n

/-- Longest prefix satisfying the predicate, paired with the rest: the
maximal-run reading a regex engine gives a character-class repetition
followed by a literal. -/
def spanP (p : Char → Bool) : List Char → List Char × List Char
  | [] => ([], [])
  | a :: as =>
    if p a then
      let r := spanP p as
      (a :: r.1, r.2)
    else ([], a :: as)

/-- Captures of the anchored regular expression
`^((?P<minute>\d{1,2}):)?(?P<second>\d{1,2})\.(?P<frames>\d{3})$`
(`TTML_TIMETAG_MS`): optional minute, second, and frames digit strings.
The matcher is structural: the separators `:` and `.` are literals and
every field is a maximal digit run, so greedy matching with
backtracking accepts exactly these shapes with exactly these captures.
The `\d` class is modelled as the ASCII digits; the regex crate's
`\d` is Unicode-aware, so the matcher coincides with the source
pattern exactly on ASCII strings, and every universally quantified
claim over it restricts to that domain. -/
def msMatchL (cs : List Char) : Option (Option (List Char) × List Char × List Char) :=
  let p := spanP Char.isDigit cs
  match p.2 with
  | ':' :: r1 =>
    if p.1.length < 1 || 2 < p.1.length then none else
    let q := spanP Char.isDigit r1
    match q.2 with
    | '.' :: r2 =>
      if q.1.length < 1 || 2 < q.1.length then none else
      let f := spanP Char.isDigit r2
      if f.1.length = 3 && f.2 = [] then some (some p.1, q.1, f.1) else none
    | _ => none
  | '.' :: r1 =>
    if p.1.length < 1 || 2 < p.1.length then none else
    let f := spanP Char.isDigit r1
    if f.1.length = 3 && f.2 = [] then some (none, p.1, f.1) else none
  | _ => none

/-- Captures of the anchored regular expression
`^((?P<hour>\d+):)?((?P<minute>\d{1,2}):)?(?P<second>\d{1,2})\.(?P<frames>\d{3})$`
(`TTML_TIMETAG_HMS`): optional hour, optional minute, second and frames.
With one colon the leading run is captured by the `hour` group (the
regex engine commits to the first optional group and the rest of the
pattern still matches), with two colons the first two runs are `hour`
and `minute`; the `minute` and `second` fields are one or two digits
while `hour` is unbounded.  As for the other pattern, `\d` is
modelled as the ASCII digits, on which the matcher coincides exactly
with the source regex, and universally quantified claims over it
restrict to ASCII strings. -/
def hmsMatchL (cs : List Char) :
    Option (Option (List Char) × Option (List Char) × List Char × List Char) :=
  let p := spanP Char.isDigit cs
  match p.2 with
  | '.' :: r1 =>
    if p.1.length < 1 || 2 < p.1.length then none else
    let f := spanP Char.isDigit r1
    if f.1.length = 3 && f.2 = [] then some (none, none, p.1, f.1) else none
  | ':' :: r1 =>
    if p.1.length < 1 then none else
    let q := spanP Char.isDigit r1
    match q.2 with
    | '.' :: r2 =>
      if q.1.length < 1 || 2 < q.1.length then none else
      let f := spanP Char.isDigit r2
      if f.1.length = 3 && f.2 = [] then some (some p.1, none, q.1, f.1) else none
    | ':' :: r2 =>
      if q.1.length < 1 || 2 < q.1.length then none else
      let s := spanP Char.isDigit r2
      match s.2 with
      | '.' :: r3 =>
        if s.1.length < 1 || 2 < s.1.length then none else
        let f := spanP Char.isDigit r3
        if f.1.length = 3 && f.2 = [] then some (some p.1, some q.1, s.1, f.1) else none
      | _ => none
    | _ => none
  | _ => none

/-- Modelled from the spec: the target timestamp of the `lrc` library
(`lrc::TimeTag`), absent from the repository.  Per the specification a
timestamp denotes a normalized non-negative duration; the line-lyric
precision unit is the centisecond, so the model stores the total
centisecond count. -/
structure TimeTag where
  centis : Nat
deriving Repr, DecidableEq

/-- Total-minute field of the target form (hours are folded in). -/
def TimeTag.minutes (t : TimeTag) : Nat := t.centis / 6000

/-- Second field of the target form. -/
def TimeTag.seconds (t : TimeTag) : Nat := t.centis / 100 % 60

/-- Centisecond field of the target form. -/
def TimeTag.fracCs (t : TimeTag) : Nat := t.centis % 100

/-- Modelled from the spec: parsing of the intermediate `MM:SS.cc`
string by `lrc::TimeTag::from_str` (library code absent from the
repository).  The specification fixes the target layout as
`MM:SS.cc` with `cc` the centisecond field, so the digits after the
dot are read as the centisecond count. -/
def timeTagFromStr (cs : List Char) : Option TimeTag :=
  let m := spanP Char.isDigit cs
  match m.2 with
  | ':' :: r1 =>
    if m.1.length < 1 then none else
    let s := spanP Char.isDigit r1
    match s.2 with
    | '.' :: r2 =>
      if s.1.length < 1 then none else
      let f := spanP Char.isDigit r2
      if f.1.length < 1 || !f.2.isEmpty then none else
      some ⟨natValue m.1 * 6000 + natValue s.1 * 100 + natValue f.1⟩
    | _ => none
  | _ => none

/-- Modelled from the spec: rendering of a target timestamp as
zero-padded `MM:SS.cc` (the `Display` of `lrc::TimeTag`), with the
total-minute field of unbounded width. -/
def TimeTag.render (t : TimeTag) : String :=
  ⟨pad2L t.minutes ++ ':' :: pad2L t.seconds ++ '.' :: pad2L t.fracCs⟩

/-- Embedding of `ttml_timetag_to_lrc_timetag` (src/main.rs:38-70):
try the minute-second pattern, then the hour-minute-second pattern,
else return the `Invalid pattern` error.  `parse().unwrap()` on an
out-of-range hour is a panic; the 32-bit multiply-add on the hour fold
wraps modulo `2^32` (release arithmetic). -/
def ttml_timetag_to_lrc_timetag (ttml : String) : ROutcome TimeTag :=
  match msMatchL ttml.data with
  | some (minC, secC, framesC) =>
    match (minC.map parseU32).getD (some 0), parseU32 secC, parseU32 framesC with
    | some mn, some sec, some ms =>
      let ts := pad2L mn ++ ':' :: pad2L sec ++ '.' :: decDigits (ms / 10)
      match timeTagFromStr ts with
      | some t => .ok t
      | none => .err "Failed to parse lrc timetag"
    | _, _, _ => .fault unwrapNoneMsg
  | none =>
  match hmsMatchL ttml.data with
  | some (hourC, minC, secC, framesC) =>
    match (hourC.map parseU32).getD (some 0), (minC.map parseU32).getD (some 0),
        parseU32 secC, parseU32 framesC with
    | some hr, some mn, some sec, some ms =>
      let folded := (hr * 60 + mn) % 2 ^ 32
      let ts := pad2L folded ++ ':' :: pad2L sec ++ '.' :: decDigits (ms / 10)
      match timeTagFromStr ts with
      | some t => .ok t
      | none => .err "Failed to parse lrc timetag"
    | _, _, _, _ => .fault unwrapNoneMsg
  | none => .err "Invalid pattern"

/-- Rendered result of the translator, for claims about the final
textual timestamp. -/
def translateRender (s : String) : Option String :=
  match ttml_timetag_to_lrc_timetag s with
  | .ok t => some t.render
  | _ => none

/-- Modelled from the spec: the markup document of the external `xmlem`
DOM — an immutable tree of elements, each with a tag name, an ordered
attribute list and an ordered child sequence of element or text nodes. -/
inductive XNode where
  | elem (tag : String) (attrs : List (String × String)) (children : List XNode)
  | text (s : String)
deriving Repr

/-- Tag of an element node, `none` for a text node. -/
def XNode.tagOf : XNode → Option String
  | .elem t _ _ => some t
  | .text _ => none

/-- Whether the node is an element. -/
def XNode.isElem : XNode → Bool
  | .elem _ _ _ => true
  | .text _ => false

/-- Direct children of a node (`Node::child_nodes`). -/
def XNode.childNodes : XNode → List XNode
  | .elem _ _ cs => cs
  | .text _ => []

/-- Text payload of a node (`Node::as_text`), `none` on an element. -/
def XNode.asText : XNode → Option String
  | .text s => some s
  | .elem _ _ _ => none

/-- Attribute lookup on an element (`Element::attribute`). -/
def XNode.attr : XNode → String → Option String
  | .elem _ a _, nm => (a.find? (fun q => q.1 = nm)).map Prod.snd
  | .text _, _ => none

mutual

/-- Modelled from the spec: all strict descendants of a node in
document (pre)order, the search space of the `xmlem` query-selector
surface ("find descendants by tag name"). -/
def XNode.descendants : XNode → List XNode
  | .elem _ _ cs => XNode.descList cs
  | .text _ => []

/-- Descendant enumeration over a child list, keeping document order. -/
def XNode.descList : List XNode → List XNode
  | [] => []
  | c :: cs => c :: XNode.descendants c ++ XNode.descList cs

end

/-- Modelled from the spec: `query_selector_all` with a tag-name
selector — every descendant element with the given tag, in document
order. -/
def XNode.selectAll (n : XNode) (tag : String) : List XNode :=
  n.descendants.filter (fun d => d.tagOf = some tag)

/-- Modelled from the spec: `query_selector` with a tag-name selector —
the first descendant element with the given tag. -/
def XNode.selectFirst (n : XNode) (tag : String) : Option XNode :=
  (n.selectAll tag).head?

/-- Modelled from the spec: the lyric document of the external `lrc`
library — artist/title metadata plus the ordered timed lines. -/
structure Lyrics where
  metadata : List (String × String)
  lines : List (TimeTag × String)
deriving Repr

/-- Embedding of the paragraph loop body of `ttml_to_lrc`
(src/main.rs:85-107) over a list of paragraph elements: reject a
paragraph with a `span` descendant, read the `begin` attribute
(`bail` if absent), read the first child as text (`unwrap` panics if
there is no child or it is not a text node), translate the timestamp,
and append the timed line.  Line insertion (`Lyrics::add_timed_line`)
is modelled from the spec as order-preserving appending. -/
def processPs : List XNode → List (TimeTag × String) → ROutcome (List (TimeTag × String))
  | [], acc => .ok acc
  | p :: ps, acc =>
    if (p.selectFirst "span").isSome then .err "Syllable lyrics is not supported"
    else
      match p.attr "begin" with
      | none => .err "No begin attribute"
      | some begTag =>
        match p.childNodes.head? with
        | none => .fault unwrapNoneMsg
        | some c =>
          match c.asText with
          | none => .fault unwrapNoneMsg
          | some txt =>
            match ttml_timetag_to_lrc_timetag begTag with
            | .ok tg => processPs ps (acc ++ [(tg, txt)])
            | .err e => .err e
            | .fault m => .fault m

/-- Embedding of the division loop of `ttml_to_lrc` (src/main.rs:84):
process the paragraphs of each `div` descendant of the body in turn. -/
def processDivs : List XNode → List (TimeTag × String) → ROutcome (List (TimeTag × String))
  | [], acc => .ok acc
  | d :: ds, acc =>
    match processPs (d.selectAll "p") acc with
    | .ok acc2 => processDivs ds acc2
    | .err e => .err e
    | .fault m => .fault m

/-- Embedding of `ttml_to_lrc` (src/main.rs:72-111): look up the body
element (`unwrap` panics when it is absent), insert the `ar`/`ti`
metadata, then walk the `div`/`p` structure accumulating timed lines. -/
def ttml_to_lrc (doc : XNode) (author nm : String) : ROutcome Lyrics :=
  match doc.selectFirst "body" with
  | none => .fault unwrapNoneMsg
  | some body =>
    match processDivs (body.selectAll "div") [] with
    | .ok lns => .ok ⟨[("ar", author), ("ti", nm)], lns⟩
    | .err e => .err e
    | .fault m => .fault m

/-- Paragraph elements of a document in encounter order: for each `div`
descendant of the body, its `p` descendants (empty when there is no
body element). -/
def paragraphsOf (doc : XNode) : List XNode :=
  match doc.selectFirst "body" with
  | none => []
  | some body => (body.selectAll "div").flatMap (fun d => d.selectAll "p")

/-- Restatement, following the spec's words, of what one qualifying
paragraph contributes: no `span` descendant, a `begin` attribute that
translates, and a first child holding literal text.  Used to compare
the synthesizer's output against the per-paragraph description. -/
def specLineOfParagraph (p : XNode) : Option (TimeTag × String) :=
  if (p.selectFirst "span").isSome then none
  else
    match p.attr "begin" with
    | none => none
    | some begTag =>
      match p.childNodes.head? with
      | none => none
      | some c =>
        match c.asText with
        | none => none
        | some txt =>
          match ttml_timetag_to_lrc_timetag begTag with
          | .ok tg => some (tg, txt)
          | _ => none

/-- Whitespace characters the markup surface treats as insignificant
between structural tokens. -/
def isWsCh (c : Char) : Bool := c = ' ' || c = '\n' || c = '\t' || c = '\r'

/-- Characters allowed in tag and attribute names of the modelled
markup subset. -/
def isNameCh (c : Char) : Bool :=
  !(isWsCh c || c = '<' || c = '>' || c = '/' || c = '=' || c = '\"')

/-- Indentation run of a given width. -/
def indentL (i : Nat) : List Char := List.replicate i ' '

/-- Serialized attribute list: one space before each `name="value"`. -/
def fmtAttrsL : List (String × String) → List Char
  | [] => []
  | (nm, v) :: rest => ' ' :: nm.data ++ '=' :: '\"' :: v.data ++ '\"' :: fmtAttrsL rest

mutual

/-- Modelled from the spec: the canonical XML formatter
(`to_string_pretty_with_config`, absent from the repository) —
pretty-printing with indent width 2, childless elements self-closed, a
single text child kept inline with its internal whitespace preserved
exactly (text nodes are not re-indented), and element children each on
an indented line of their own.  The 128-column soft wrapping hint only
moves insignificant inter-token whitespace, which re-parsing ignores,
so it is not modelled. -/
def fmtCoreL (i : Nat) : XNode → List Char
  | .text s => s.data
  | .elem t a cs =>
    match cs with
    | [] => '<' :: t.data ++ fmtAttrsL a ++ ['/', '>']
    | [.text s] =>
      '<' :: t.data ++ fmtAttrsL a ++ '>' :: s.data ++ '<' :: '/' :: t.data ++ ['>']
    | _ =>
      '<' :: t.data ++ fmtAttrsL a ++ '>' :: fmtKids (i + 2) cs ++
        '\n' :: indentL i ++ '<' :: '/' :: t.data ++ ['>']

/-- Element-children block: each child on a fresh line at the given
indentation. -/
def fmtKids (i : Nat) : List XNode → List Char
  | [] => []
  | c :: cs => '\n' :: indentL i ++ fmtCoreL i c ++ fmtKids i cs

end

/-- Full formatted text: the root element followed by the line
terminator and the single trailing padding line (`end_pad: 1`). -/
def pretty (d : XNode) : String := ⟨fmtCoreL 0 d ++ ['\n', '\n']⟩

/-- Modelled from the spec: attribute-list parsing of the markup
parser.  Between attributes any whitespace is skipped; each attribute
is `name="value"` and the list ends at `/` or `>`. -/
def parseAttrs : Nat → List Char → Option (List (String × String) × List Char)
  | 0, _ => none
  | fuel + 1, cs =>
    let cs1 := cs.dropWhile isWsCh
    match cs1 with
    | '/' :: _ => some ([], cs1)
    | '>' :: _ => some ([], cs1)
    | _ =>
      let nm := spanP isNameCh cs1
      if nm.1.isEmpty then none else
      match nm.2 with
      | '=' :: '\"' :: r2 =>
        let v := spanP (fun c => c ≠ '\"') r2
        match v.2 with
        | '\"' :: r4 =>
          match parseAttrs fuel r4 with
          | some (as, r5) => some ((⟨nm.1⟩, ⟨v.1⟩) :: as, r5)
          | none => none
        | _ => none
      | _ => none

/-- Element-sequence parsing, parameterized by the element parser so
that the recursion stays structural in the fuel: repeatedly parse an
element, require only whitespace up to the next `<`, and stop in front
of a closing tag. -/
def parseElemsAux (pn : List Char → Option (XNode × List Char)) :
    Nat → List Char → Option (List XNode × List Char)
  | 0, _ => none
  | fuel + 1, cs =>
    match cs with
    | '<' :: '/' :: _ => some ([], cs)
    | '<' :: _ =>
      match pn cs with
      | none => none
      | some (n, r) =>
        let w := spanP (fun c => c ≠ '<') r
        if w.1.all isWsCh then
          match parseElemsAux pn fuel w.2 with
          | some (ns, r3) => some (n :: ns, r3)
          | none => none
        else none
    | _ => none

/-- Modelled from the spec: single-element parsing of the markup
parser over the supported structural subset — a tag with attributes,
self-closing or with content that is either literal text or a
whitespace-separated sequence of child elements, closed by a matching
end tag. -/
def parseNode : Nat → List Char → Option (XNode × List Char)
  | 0, _ => none
  | fuel + 1, cs =>
    match cs with
    | '<' :: cs1 =>
      let tg := spanP isNameCh cs1
      if tg.1.isEmpty then none else
      match parseAttrs fuel tg.2 with
      | none => none
      | some (as, r2) =>
        match r2 with
        | '/' :: '>' :: r3 => some (.elem ⟨tg.1⟩ as [], r3)
        | '>' :: r3 =>
          let run := spanP (fun c => c ≠ '<') r3
          match run.2 with
          | '<' :: '/' :: r5 =>
            let tg2 := spanP isNameCh r5
            match tg2.2 with
            | '>' :: r7 =>
              if tg2.1 = tg.1 then
                if run.1.isEmpty then some (.elem ⟨tg.1⟩ as [], r7)
                else some (.elem ⟨tg.1⟩ as [.text ⟨run.1⟩], r7)
              else none
            | _ => none
          | '<' :: _ =>
            if run.1.all isWsCh then
              match parseElemsAux (parseNode fuel) fuel run.2 with
              | some (ns, r4) =>
                match r4 with
                | '<' :: '/' :: r5 =>
                  let tg2 := spanP isNameCh r5
                  match tg2.2 with
                  | '>' :: r7 =>
                    if tg2.1 = tg.1 then some (.elem ⟨tg.1⟩ as ns, r7) else none
                  | _ => none
                | _ => none
              | none => none
            else none
          | _ => none
        | _ => none
    | _ => none

/-- Modelled from the spec: `xmlem::Document::from_str` — parse a
markup string into a document tree, `none` on input that is not
well-formed under the modelled subset.  The fuel bound exceeds any
recursion depth the input can sustain. -/
def Document.fromStr (s : String) : Option XNode :=
  match parseNode (s.data.length + 1) (s.data.dropWhile isWsCh) with
  | some (n, r) => if (r.dropWhile isWsCh).isEmpty then some n else none
  | none => none

/-- Embedding of `nice_xml` (src/main.rs:16-27): parse the raw string
(`expect` panics on a parse failure) and re-serialize it with the
canonical formatter. -/
def nice_xml (xml : String) : ROutcome String :=
  match Document.fromStr xml with
  | none => .fault "Failed to parse xml"
  | some d => .ok (pretty d)

/-- Modelled from the spec: textual rendering of a lyric document
(`Lyrics::to_string`) — the metadata lines first, then one
`[MM:SS.cc]text` line per timed line in order, newline-terminated. -/
def renderLyrics (l : Lyrics) : String :=
  ⟨l.metadata.flatMap (fun q => '[' :: q.1.data ++ ':' :: q.2.data ++ [']', '\n']) ++
    l.lines.flatMap (fun q => '[' :: (TimeTag.render q.1).data ++ ']' :: q.2.data ++ ['\n'])⟩

/-- Embedding of the line-lyric branch of `save_album_lyrics` /
`save_song_lyrics` (src/main.rs:234-239, 290-295): parse the raw
markup (`expect` panics on a parse failure), synthesize the lyric
document, and render it. -/
def lrcConversion (raw artist nm : String) : ROutcome String :=
  match Document.fromStr raw with
  | none => .fault "Failed to parse xml"
  | some d =>
    match ttml_to_lrc d artist nm with
    | .ok l => .ok (renderLyrics l)
    | .err e => .err e
    | .fault m => .fault m

theorem spanP_all (p : Char → Bool) (xs : List Char) (h : xs.all p = true) :
    spanP p xs = (xs, []) := by
  induction xs with
  | nil => rfl
  | cons a as ih =>
    simp only [List.all_cons, Bool.and_eq_true] at h
    simp [spanP, h.1, ih h.2]

theorem spanP_append (p : Char → Bool) (xs : List Char) (c : Char) (ys : List Char)
    (hx : xs.all p = true) (hc : p c = false) :
    spanP p (xs ++ c :: ys) = (xs, c :: ys) := by
  induction xs with
  | nil => simp [spanP, hc]
  | cons a as ih =>
    simp only [List.all_cons, Bool.and_eq_true] at hx
    simp [spanP, hx.1, ih hx.2]


theorem charDigit_lt (c : Char) (h : c.isDigit = true) : charDigit c < 10 := by
  simp only [Char.isDigit, decide_eq_true_eq, Bool.and_eq_true] at h
  obtain ⟨h1, h2⟩ := h
  rw [ge_iff_le, UInt32.le_def, BitVec.le_def] at h1
  rw [UInt32.le_def, BitVec.le_def] at h2
  simp only [show ((48 : UInt32)).toBitVec.toNat = 48 from rfl,
    show ((57 : UInt32)).toBitVec.toNat = 57 from rfl] at h1 h2
  simp only [charDigit, Char.toNat, UInt32.toNat]
  omega

theorem natValue_nil : natValue [] = 0 := rfl

theorem natValue_foldl_init (ys : List Char) :
    ∀ a : Nat,
      List.foldl (fun b c => b * 10 + charDigit c) a ys = a * 10 ^ ys.length + natValue ys := by
  induction ys with
  | nil => intro a; simp [natValue]
  | cons c ys ih =>
    intro a
    have hys : natValue (c :: ys) = charDigit c * 10 ^ ys.length + natValue ys := by
      have h0 : natValue (c :: ys) =
          List.foldl (fun b c => b * 10 + charDigit c) (0 * 10 + charDigit c) ys := rfl
      rw [h0, ih]
      ring
    rw [List.foldl_cons, ih, hys, List.length_cons]
    ring

theorem natValue_cons (c : Char) (ys : List Char) :
    natValue (c :: ys) = charDigit c * 10 ^ ys.length + natValue ys := by
  have h0 : natValue (c :: ys) =
      List.foldl (fun b c => b * 10 + charDigit c) (0 * 10 + charDigit c) ys := rfl
  rw [h0, natValue_foldl_init]
  ring

theorem natValue_append (xs ys : List Char) :
    natValue (xs ++ ys) = natValue xs * 10 ^ ys.length + natValue ys := by
  have h0 : natValue (xs ++ ys) =
      List.foldl (fun b c => b * 10 + charDigit c) (natValue xs) ys := by
    simp [natValue, List.foldl_append]
  rw [h0, natValue_foldl_init]

theorem natValue_lt (cs : List Char) (h : cs.all Char.isDigit = true) :
    natValue cs < 10 ^ cs.length := by
  induction cs with
  | nil => simp [natValue]
  | cons c cs ih =>
    simp only [List.all_cons, Bool.and_eq_true] at h
    have hc := charDigit_lt c h.1
    have hv := ih h.2
    rw [natValue_cons]
    simp only [List.length_cons, pow_succ]
    nlinarith

theorem charDigit_digitCh (n : Nat) (h : n < 10) : charDigit (digitCh n) = n := by
  interval_cases n <;> decide

theorem isDigit_digitCh (n : Nat) (h : n < 10) : (digitCh n).isDigit = true := by
  interval_cases n <;> decide

theorem decDigitsAux_spec (fuel : Nat) :
    ∀ n, n < fuel →
      (decDigitsAux fuel n).all Char.isDigit = true ∧
      decDigitsAux fuel n ≠ [] ∧ natValue (decDigitsAux fuel n) = n := by
  induction fuel with
  | zero => intro n h; omega
  | succ fuel ih =>
    intro n h
    by_cases h10 : n < 10
    · refine ⟨?_, ?_, ?_⟩ <;>
        simp [decDigitsAux, h10, isDigit_digitCh n h10, natValue_cons, natValue_nil,
          charDigit_digitCh n h10]
    · have hd : n / 10 < fuel := by
        have := Nat.div_lt_self (by omega : 0 < n) (by omega : 1 < 10)
        omega
      obtain ⟨ha, hn, hv⟩ := ih (n / 10) hd
      refine ⟨?_, ?_, ?_⟩
      · simp [decDigitsAux, h10, List.all_append, ha,
          isDigit_digitCh (n % 10) (Nat.mod_lt n (by omega))]
      · simp [decDigitsAux, h10]
      · simp only [decDigitsAux, h10, if_false, natValue_append, hv, List.length_cons,
          List.length_nil, pow_one, natValue_cons, natValue_nil, pow_zero,
          charDigit_digitCh (n % 10) (Nat.mod_lt n (by omega))]
        omega

theorem decDigits_all (n : Nat) : (decDigits n).all Char.isDigit = true :=
  (decDigitsAux_spec (n + 1) n (by omega)).1

theorem decDigits_ne_nil (n : Nat) : decDigits n ≠ [] :=
  (decDigitsAux_spec (n + 1) n (by omega)).2.1

theorem natValue_decDigits (n : Nat) : natValue (decDigits n) = n :=
  (decDigitsAux_spec (n + 1) n (by omega)).2.2

theorem pad2L_all (n : Nat) : (pad2L n).all Char.isDigit = true := by
  by_cases h : n < 10 <;> simp [pad2L, h, decDigits_all]

theorem pad2L_ne_nil (n : Nat) : pad2L n ≠ [] := by
  by_cases h : n < 10 <;> simp [pad2L, h, decDigits_ne_nil]

theorem natValue_pad2L (n : Nat) : natValue (pad2L n) = n := by
  by_cases h : n < 10
  · simp only [pad2L, h, if_true, natValue_cons, natValue_decDigits]
    have : charDigit '0' = 0 := rfl
    simp [this]
  · simp [pad2L, h, natValue_decDigits]

theorem length_pos_of_ne_nil {xs : List Char} (h : xs ≠ []) : 1 ≤ xs.length :=
  List.length_pos.mpr h

theorem natValue_le_of_len2 (cs : List Char) (h : cs.all Char.isDigit = true)
    (hl : cs.length ≤ 2) : natValue cs ≤ 99 := by
  have := natValue_lt cs h
  have hp : (10 : Nat) ^ cs.length ≤ 10 ^ 2 := Nat.pow_le_pow_right (by omega) hl
  omega

theorem natValue_le_of_len3 (cs : List Char) (h : cs.all Char.isDigit = true)
    (hl : cs.length ≤ 3) : natValue cs ≤ 999 := by
  have := natValue_lt cs h
  have hp : (10 : Nat) ^ cs.length ≤ 10 ^ 3 := Nat.pow_le_pow_right (by omega) hl
  omega

theorem msMatchL_sf (s f : List Char) (hs : s.all Char.isDigit = true)
    (hs1 : 1 ≤ s.length) (hs2 : s.length ≤ 2) (hf : f.all Char.isDigit = true)
    (hf3 : f.length = 3) :
    msMatchL (s ++ '.' :: f) = some (none, s, f) := by
  have hne : s ≠ [] := by intro hn; rw [hn] at hs1; simp at hs1
  have h1 : spanP Char.isDigit (s ++ '.' :: f) = (s, '.' :: f) :=
    spanP_append _ s '.' f hs (by decide)
  have h2 : spanP Char.isDigit f = (f, []) := spanP_all _ f hf
  simp [msMatchL, h1, h2, hne, hs2, hf3]

theorem msMatchL_two_colons (h m rest : List Char) (hh : h.all Char.isDigit = true)
    (hm : m.all Char.isDigit = true) :
    msMatchL (h ++ ':' :: (m ++ ':' :: rest)) = none := by
  have h1 : spanP Char.isDigit (h ++ ':' :: (m ++ ':' :: rest)) =
      (h, ':' :: (m ++ ':' :: rest)) := spanP_append _ h ':' _ hh (by decide)
  have h2 : spanP Char.isDigit (m ++ ':' :: rest) = (m, ':' :: rest) :=
    spanP_append _ m ':' rest hm (by decide)
  by_cases hne : h = []
  · simp only [msMatchL, h1]
    simp [hne]
  · by_cases hlen : 2 < h.length
    · simp only [msMatchL, h1]
      simp [hlen]
    · simp [msMatchL, h1, h2, hne, hlen]

theorem hmsMatchL_hmsf (h m s f : List Char) (hh : h.all Char.isDigit = true)
    (hh1 : 1 ≤ h.length) (hm : m.all Char.isDigit = true) (hm1 : 1 ≤ m.length)
    (hm2 : m.length ≤ 2) (hs : s.all Char.isDigit = true) (hs1 : 1 ≤ s.length)
    (hs2 : s.length ≤ 2) (hf : f.all Char.isDigit = true) (hf3 : f.length = 3) :
    hmsMatchL (h ++ ':' :: (m ++ ':' :: (s ++ '.' :: f))) = some (some h, some m, s, f) := by
  have hneh : h ≠ [] := by intro hn; rw [hn] at hh1; simp at hh1
  have hnem : m ≠ [] := by intro hn; rw [hn] at hm1; simp at hm1
  have hnes : s ≠ [] := by intro hn; rw [hn] at hs1; simp at hs1
  have h1 : spanP Char.isDigit (h ++ ':' :: (m ++ ':' :: (s ++ '.' :: f))) =
      (h, ':' :: (m ++ ':' :: (s ++ '.' :: f))) := spanP_append _ h ':' _ hh (by decide)
  have h2 : spanP Char.isDigit (m ++ ':' :: (s ++ '.' :: f)) =
      (m, ':' :: (s ++ '.' :: f)) := spanP_append _ m ':' _ hm (by decide)
  have h3 : spanP Char.isDigit (s ++ '.' :: f) = (s, '.' :: f) :=
    spanP_append _ s '.' f hs (by decide)
  have h4 : spanP Char.isDigit f = (f, []) := spanP_all _ f hf
  simp [hmsMatchL, h1, h2, h3, h4, hneh, hnem, hnes, hm2, hs2, hf3]

theorem timeTagFromStr_shape (M S F : Nat) :
    timeTagFromStr (pad2L M ++ ':' :: (pad2L S ++ '.' :: decDigits F)) =
      some ⟨M * 6000 + S * 100 + F⟩ := by
  have h1 : spanP Char.isDigit (pad2L M ++ ':' :: (pad2L S ++ '.' :: decDigits F)) =
      (pad2L M, ':' :: (pad2L S ++ '.' :: decDigits F)) :=
    spanP_append _ _ ':' _ (pad2L_all M) (by decide)
  have h2 : spanP Char.isDigit (pad2L S ++ '.' :: decDigits F) =
      (pad2L S, '.' :: decDigits F) :=
    spanP_append _ _ '.' _ (pad2L_all S) (by decide)
  have h3 : spanP Char.isDigit (decDigits F) = (decDigits F, []) :=
    spanP_all _ _ (decDigits_all F)
  simp [timeTagFromStr, h1, h2, h3, pad2L_ne_nil, decDigits_ne_nil,
    natValue_pad2L, natValue_decDigits]

theorem strData_mk (l : List Char) : (String.mk l).data = l := rfl

theorem parseU32_of_le (cs : List Char) (h : natValue cs ≤ u32Max) :
    parseU32 cs = some (natValue cs) := by
  simp [parseU32, h]

theorem translate_sf (s f : List Char) (hs : s.all Char.isDigit = true)
    (hs1 : 1 ≤ s.length) (hs2 : s.length ≤ 2) (hf : f.all Char.isDigit = true)
    (hf3 : f.length = 3) :
    ttml_timetag_to_lrc_timetag ⟨s ++ '.' :: f⟩ =
      .ok ⟨natValue s * 100 + natValue f / 10⟩ := by
  have hms := msMatchL_sf s f hs hs1 hs2 hf hf3
  have hps : parseU32 s = some (natValue s) :=
    parseU32_of_le s (by have := natValue_le_of_len2 s hs hs2; simp [u32Max]; omega)
  have hpf : parseU32 f = some (natValue f) :=
    parseU32_of_le f (by have := natValue_le_of_len3 f hf (by omega); simp [u32Max]; omega)
  have htt := timeTagFromStr_shape 0 (natValue s) (natValue f / 10)
  simp only [ttml_timetag_to_lrc_timetag, strData_mk, hms, Option.map_none,
    Option.getD_some, hps, hpf, List.cons_append, List.append_assoc] at htt ⊢
  simp [htt]

theorem translate_hmsf (hS mS sS fS : List Char) (hh : hS.all Char.isDigit = true)
    (hh1 : 1 ≤ hS.length) (hm : mS.all Char.isDigit = true) (hm1 : 1 ≤ mS.length)
    (hm2 : mS.length ≤ 2) (hs : sS.all Char.isDigit = true) (hs1 : 1 ≤ sS.length)
    (hs2 : sS.length ≤ 2) (hf : fS.all Char.isDigit = true) (hf3 : fS.length = 3)
    (hrange : natValue hS ≤ u32Max) (hfold : natValue hS * 60 + natValue mS ≤ u32Max) :
    ttml_timetag_to_lrc_timetag ⟨hS ++ ':' :: (mS ++ ':' :: (sS ++ '.' :: fS))⟩ =
      .ok ⟨(natValue hS * 60 + natValue mS) * 6000 + natValue sS * 100 + natValue fS / 10⟩ := by
  have hnone := msMatchL_two_colons hS mS (sS ++ '.' :: fS) hh hm
  have hhms := hmsMatchL_hmsf hS mS sS fS hh hh1 hm hm1 hm2 hs hs1 hs2 hf hf3
  have hph : parseU32 hS = some (natValue hS) := parseU32_of_le hS hrange
  have hpm : parseU32 mS = some (natValue mS) :=
    parseU32_of_le mS (by have := natValue_le_of_len2 mS hm hm2; simp [u32Max]; omega)
  have hps : parseU32 sS = some (natValue sS) :=
    parseU32_of_le sS (by have := natValue_le_of_len2 sS hs hs2; simp [u32Max]; omega)
  have hpf : parseU32 fS = some (natValue fS) :=
    parseU32_of_le fS (by have := natValue_le_of_len3 fS hf (by omega); simp [u32Max]; omega)
  have hmod : (natValue hS * 60 + natValue mS) % 2 ^ 32 = natValue hS * 60 + natValue mS := by
    apply Nat.mod_eq_of_lt
    simp [u32Max] at hfold
    omega
  have htt := timeTagFromStr_shape (natValue hS * 60 + natValue mS) (natValue sS)
    (natValue fS / 10)
  simp only [ttml_timetag_to_lrc_timetag, strData_mk, hnone, hhms, Option.map_some,
    Option.getD_some, List.cons_append, List.append_assoc] at htt ⊢
  simp only [Option.map_some', Option.getD_some, hph, hpm, hps, hpf]
  have hmod4 : (natValue hS * 60 + natValue mS) % 4294967296 = natValue hS * 60 + natValue mS := by
    simp only [u32Max] at hfold
    omega
  simp [hmod4, htt]

/-- C1: for every valid source string `SS.fff` with `SS` in `[0,59]` and
`fff` in `[000,999]`, the timestamp translator succeeds and returns the
target timestamp with minutes 0, seconds `SS`, and centiseconds
`floor(fff/10)`, rendered as zero-padded `MM:SS.cc`; in particular
`translate("5.005")` returns exactly `"00:05.00"`. -/
theorem c1_valid_second_frames :
    (∀ s f : List Char, s.all Char.isDigit = true → 1 ≤ s.length → s.length ≤ 2 →
      natValue s ≤ 59 → f.all Char.isDigit = true → f.length = 3 →
      ∃ t : TimeTag,
        ttml_timetag_to_lrc_timetag ⟨s ++ '.' :: f⟩ = .ok t ∧
        t.minutes = 0 ∧ t.seconds = natValue s ∧ t.fracCs = natValue f / 10 ∧
        t.render = ⟨pad2L 0 ++ ':' :: (pad2L (natValue s) ++ '.' :: pad2L (natValue f / 10))⟩) ∧
    translateRender "5.005" = some "00:05.00" := by
  refine ⟨?_, by decide⟩
  intro s f hs hs1 hs2 hs59 hf hf3
  refine ⟨⟨natValue s * 100 + natValue f / 10⟩, translate_sf s f hs hs1 hs2 hf hf3, ?_, ?_, ?_, ?_⟩
  · have hcc : natValue f / 10 ≤ 99 := by
      have := natValue_le_of_len3 f hf (by omega)
      omega
    simp only [TimeTag.minutes]
    omega
  · have hcc : natValue f / 10 ≤ 99 := by
      have := natValue_le_of_len3 f hf (by omega)
      omega
    simp only [TimeTag.seconds]
    omega
  · have hcc : natValue f / 10 ≤ 99 := by
      have := natValue_le_of_len3 f hf (by omega)
      omega
    simp only [TimeTag.fracCs]
    omega
  · have hcc : natValue f / 10 ≤ 99 := by
      have := natValue_le_of_len3 f hf (by omega)
      omega
    have e1 : TimeTag.minutes ⟨natValue s * 100 + natValue f / 10⟩ = 0 := by
      simp only [TimeTag.minutes]; omega
    have e2 : TimeTag.seconds ⟨natValue s * 100 + natValue f / 10⟩ = natValue s := by
      simp only [TimeTag.seconds]; omega
    have e3 : TimeTag.fracCs ⟨natValue s * 100 + natValue f / 10⟩ = natValue f / 10 := by
      simp only [TimeTag.fracCs]; omega
    simp [TimeTag.render, e1, e2, e3]

/-- Witness for C1 at the concrete input `"5.005"`. -/
theorem c1_valid_second_frames_witness :
    ∃ t : TimeTag,
      ttml_timetag_to_lrc_timetag ⟨['5'] ++ '.' :: ['0', '0', '5']⟩ = .ok t ∧
      t.minutes = 0 ∧ t.seconds = natValue ['5'] ∧ t.fracCs = natValue ['0', '0', '5'] / 10 ∧
      t.render = ⟨pad2L 0 ++ ':' ::
        (pad2L (natValue ['5']) ++ '.' :: pad2L (natValue ['0', '0', '5'] / 10))⟩ :=
  c1_valid_second_frames.1 ['5'] ['0', '0', '5'] (by decide) (by decide) (by decide)
    (by decide) (by decide) (by decide)

/-- C5: for every source timestamp with an hours field, the translator
folds the hours into the target minutes field (total minutes =
hours*60 + minutes) and truncates milliseconds to centiseconds by
integer division by ten; in particular `translate("1:02:03.456")`
returns `"62:03.45"`.  The two `u32` range hypotheses delimit the
inputs on which the 32-bit code does not overflow (the complement is
the subject of C10). -/
theorem c5_hours_folded :
    (∀ hS mS sS fS : List Char, hS.all Char.isDigit = true → 1 ≤ hS.length →
      mS.all Char.isDigit = true → 1 ≤ mS.length → mS.length ≤ 2 →
      sS.all Char.isDigit = true → 1 ≤ sS.length → sS.length ≤ 2 →
      fS.all Char.isDigit = true → fS.length = 3 →
      natValue hS ≤ u32Max → natValue hS * 60 + natValue mS ≤ u32Max →
      ttml_timetag_to_lrc_timetag ⟨hS ++ ':' :: (mS ++ ':' :: (sS ++ '.' :: fS))⟩ =
        .ok ⟨(natValue hS * 60 + natValue mS) * 6000 + natValue sS * 100 + natValue fS / 10⟩) ∧
    translateRender "1:02:03.456" = some "62:03.45" := by
  refine ⟨?_, by decide⟩
  intro hS mS sS fS hh hh1 hm hm1 hm2 hs hs1 hs2 hf hf3 hrange hfold
  exact translate_hmsf hS mS sS fS hh hh1 hm hm1 hm2 hs hs1 hs2 hf hf3 hrange hfold

/-- Witness for C5 at the concrete input `"1:02:03.456"`. -/
theorem c5_hours_folded_witness :
    ttml_timetag_to_lrc_timetag ⟨['1'] ++ ':' :: (['0', '2'] ++ ':' :: (['0', '3'] ++ '.' :: ['4', '5', '6']))⟩ =
      .ok ⟨(natValue ['1'] * 60 + natValue ['0', '2']) * 6000 +
        natValue ['0', '3'] * 100 + natValue ['4', '5', '6'] / 10⟩ :=
  c5_hours_folded.1 ['1'] ['0', '2'] ['0', '3'] ['4', '5', '6'] (by decide) (by decide)
    (by decide) (by decide) (by decide) (by decide) (by decide) (by decide) (by decide)
    (by decide) (by decide) (by decide)

/-- Whether the second list occurs as a contiguous prefix of the first. -/
def startsWithL : List Char → List Char → Bool
  | _, [] => true
  | [], _ :: _ => false
  | a :: as, b :: bs => a = b && startsWithL as bs

/-- Whether the second list occurs contiguously anywhere in the first. -/
def containsL : List Char → List Char → Bool
  | [], needle => needle.isEmpty
  | a :: t, needle => startsWithL (a :: t) needle || containsL t needle

/-- Whether the second string occurs in the first (used to express the
sense in which an error value does or does not carry a piece of text). -/
def strContains (hay needle : String) : Bool := containsL hay.data needle.data

/-- C6 counterexample: `translate("abc")` does fail with the typed
`MalformedTimestamp` error, but that error is the constant message
`Invalid pattern`, which does not carry the offending text `"abc"`. -/
theorem c6_no_offending_text :
    ttml_timetag_to_lrc_timetag "abc" = .err "Invalid pattern" ∧
    strContains "Invalid pattern" "abc" = false := by
  constructor
  · decide
  · decide

/-- C6 amended: every ASCII input matching neither anchored pattern
fails with the typed `MalformedTimestamp` error carrying the constant
text `Invalid pattern` (not the offending input); in particular
`translate("abc")` fails so, and the anchoring rejects trailing
garbage such as `"5.005x"`.  The ASCII bound keeps the statement on
the domain where the embedded matchers coincide exactly with the
source regexes: the crate's `\d` is Unicode-aware, so a non-ASCII
digit timestamp can match the real pattern (and then die in the
unwrapped integer parse), and this statement does not speak to such
inputs. -/
theorem c6_malformed_rejected :
    (∀ s : String, s.data.all (fun c => c.toNat ≤ 127) = true →
      msMatchL s.data = none → hmsMatchL s.data = none →
      ttml_timetag_to_lrc_timetag s = .err "Invalid pattern") ∧
    ttml_timetag_to_lrc_timetag "abc" = .err "Invalid pattern" ∧
    ttml_timetag_to_lrc_timetag "5.005x" = .err "Invalid pattern" := by
  refine ⟨?_, by decide, by decide⟩
  intro s _ h1 h2
  simp [ttml_timetag_to_lrc_timetag, h1, h2]

/-- Witness for the amended C6 at the concrete input `"abc"`. -/
theorem c6_malformed_rejected_witness :
    ttml_timetag_to_lrc_timetag "abc" = .err "Invalid pattern" :=
  c6_malformed_rejected.1 "abc" (by decide) (by decide) (by decide)

/-- C10: the translator is not total over the hours-optional pattern.
The eleven-digit hour `99999999999` is matched by the pattern (hour
field of unbounded digit count), but its value exceeds `u32::MAX`, so
the unwrapped integer parse panics instead of returning a value or an
error; and for a nine-digit hour that does parse, the 32-bit
`hours*60 + minutes` fold wraps around rather than computing the exact
total. -/
theorem c10_hour_parse_panics :
    hmsMatchL ("99999999999:00.000").data =
      some (some ['9', '9', '9', '9', '9', '9', '9', '9', '9', '9', '9'], none,
        ['0', '0'], ['0', '0', '0']) ∧
    u32Max < natValue ['9', '9', '9', '9', '9', '9', '9', '9', '9', '9', '9'] ∧
    ttml_timetag_to_lrc_timetag "99999999999:00.000" = .fault unwrapNoneMsg ∧
    ttml_timetag_to_lrc_timetag "100000000:00.000" =
      .ok ⟨100000000 * 60 % 2 ^ 32 * 6000⟩ ∧
    100000000 * 60 % 2 ^ 32 ≠ 100000000 * 60 := by
  refine ⟨by decide, by decide, by decide, ?_, by decide⟩
  decide

theorem processPs_span (p : XNode) (ps : List XNode) (acc : List (TimeTag × String))
    (h : (p.selectFirst "span").isSome = true) :
    processPs (p :: ps) acc = .err "Syllable lyrics is not supported" := by
  simp [processPs, h]

theorem processPs_step (p : XNode) (ps : List XNode) (acc : List (TimeTag × String))
    (l : TimeTag × String) (h : specLineOfParagraph p = some l) :
    processPs (p :: ps) acc = processPs ps (acc ++ [l]) := by
  cases hsp : (p.selectFirst "span").isSome with
  | true => simp [specLineOfParagraph, hsp] at h
  | false =>
    cases hb : p.attr "begin" with
    | none => simp [specLineOfParagraph, hsp, hb] at h
    | some bg =>
      cases hch : p.childNodes.head? with
      | none => simp [specLineOfParagraph, hsp, hb, hch] at h
      | some c =>
        cases htx : c.asText with
        | none => simp [specLineOfParagraph, hsp, hb, hch, htx] at h
        | some tx =>
          cases htr : ttml_timetag_to_lrc_timetag bg with
          | ok tg =>
            simp only [specLineOfParagraph, hsp, hb, hch, htx, htr, Bool.false_eq_true,
              if_false, Option.some_inj] at h
            simp [processPs, hsp, hb, hch, htx, htr, h]
          | err e => simp [specLineOfParagraph, hsp, hb, hch, htx, htr] at h
          | fault m => simp [specLineOfParagraph, hsp, hb, hch, htx, htr] at h

theorem processPs_ok_forall2 (ps : List XNode) :
    ∀ acc lns, processPs ps acc = .ok lns →
      ∃ tail, lns = acc ++ tail ∧
        List.Forall₂ (fun p l => specLineOfParagraph p = some l) ps tail := by
  induction ps with
  | nil =>
    intro acc lns h
    simp only [processPs, ROutcome.ok.injEq] at h
    exact ⟨[], by simp [h], List.Forall₂.nil⟩
  | cons p ps ih =>
    intro acc lns h
    cases hsp : (p.selectFirst "span").isSome with
    | true => rw [processPs_span p ps acc hsp] at h; cases h
    | false =>
      cases hb : p.attr "begin" with
      | none => simp [processPs, hsp, hb] at h
      | some bg =>
        cases hch : p.childNodes.head? with
        | none => simp [processPs, hsp, hb, hch] at h
        | some c =>
          cases htx : c.asText with
          | none => simp [processPs, hsp, hb, hch, htx] at h
          | some tx =>
            cases htr : ttml_timetag_to_lrc_timetag bg with
            | ok tg =>
              have hrec : processPs ps (acc ++ [(tg, tx)]) = .ok lns := by
                rw [← h]
                simp [processPs, hsp, hb, hch, htx, htr]
              obtain ⟨tail, hl, hfa⟩ := ih (acc ++ [(tg, tx)]) lns hrec
              refine ⟨(tg, tx) :: tail, by simp [hl], List.Forall₂.cons ?_ hfa⟩
              simp [specLineOfParagraph, hsp, hb, hch, htx, htr]
            | err e => simp [processPs, hsp, hb, hch, htx, htr] at h
            | fault m => simp [processPs, hsp, hb, hch, htx, htr] at h

theorem processPs_prefix_span (pre : List XNode) (p : XNode) (post : List XNode)
    (hgood : ∀ q ∈ pre, ∃ l, specLineOfParagraph q = some l)
    (hspan : (p.selectFirst "span").isSome = true) :
    ∀ acc, processPs (pre ++ p :: post) acc = .err "Syllable lyrics is not supported" := by
  induction pre with
  | nil => intro acc; exact processPs_span p post acc hspan
  | cons q pre ih =>
    intro acc
    obtain ⟨l, hl⟩ := hgood q (by simp)
    rw [List.cons_append, processPs_step q (pre ++ p :: post) acc l hl]
    exact ih (fun r hr => hgood r (by simp [hr])) (acc ++ [l])

theorem processPs_append (xs ys : List XNode) :
    ∀ acc, processPs (xs ++ ys) acc =
      match processPs xs acc with
      | .ok a2 => processPs ys a2
      | .err e => .err e
      | .fault m => .fault m := by
  induction xs with
  | nil => intro acc; rfl
  | cons p xs ih =>
    intro acc
    cases hsp : (p.selectFirst "span").isSome with
    | true => rw [List.cons_append, processPs_span p (xs ++ ys) acc hsp,
        processPs_span p xs acc hsp]
    | false =>
      cases hb : p.attr "begin" with
      | none => simp [processPs, hsp, hb]
      | some bg =>
        cases hch : p.childNodes.head? with
        | none => simp [processPs, hsp, hb, hch]
        | some c =>
          cases htx : c.asText with
          | none => simp [processPs, hsp, hb, hch, htx]
          | some tx =>
            cases htr : ttml_timetag_to_lrc_timetag bg with
            | ok tg =>
              simp only [List.cons_append, processPs, hsp, hb, hch, htx, htr,
                Bool.false_eq_true, if_false]
              exact ih (acc ++ [(tg, tx)])
            | err e => simp [processPs, hsp, hb, hch, htx, htr]
            | fault m => simp [processPs, hsp, hb, hch, htx, htr]

theorem processDivs_eq_flat (ds : List XNode) :
    ∀ acc, processDivs ds acc =
      processPs (ds.flatMap (fun d => d.selectAll "p")) acc := by
  induction ds with
  | nil => intro acc; rfl
  | cons d ds ih =>
    intro acc
    rw [List.flatMap_cons, processPs_append]
    cases h : processPs (d.selectAll "p") acc with
    | ok a2 => simp [processDivs, h, ih]
    | err e => simp [processDivs, h]
    | fault m => simp [processDivs, h]

/-- C4: for every document the synthesizer accepts, the timed lines of
the resulting lyric document correspond one-to-one, in order, with the
paragraphs in encounter order across all divisions — no sorting,
merging or monotonicity validation ever reorders them. -/
theorem c4_document_order (doc : XNode) (author nm : String) (lyr : Lyrics)
    (h : ttml_to_lrc doc author nm = .ok lyr) :
    List.Forall₂ (fun p l => specLineOfParagraph p = some l) (paragraphsOf doc) lyr.lines := by
  cases hb : doc.selectFirst "body" with
  | none => simp [ttml_to_lrc, hb] at h
  | some body =>
    simp only [ttml_to_lrc, hb] at h
    cases hpd : processDivs (body.selectAll "div") [] with
    | ok lns =>
      simp only [hpd] at h
      cases h
      rw [processDivs_eq_flat] at hpd
      obtain ⟨tail, hl, hfa⟩ := processPs_ok_forall2 _ [] lns hpd
      simp only [List.nil_append] at hl
      subst hl
      simpa [paragraphsOf, hb] using hfa
    | err e => simp only [hpd] at h; cases h
    | fault m => simp only [hpd] at h; cases h

/-- Document whose two paragraphs carry non-monotonic timestamps
(10 seconds before 5.005 seconds). -/
def ooDoc : XNode :=
  .elem "tt" [] [.elem "body" [] [.elem "div" [] [
    .elem "p" [("begin", "10.000")] [.text "later"],
    .elem "p" [("begin", "5.005")] [.text "earlier"]]]]

/-- Witness for C4: the out-of-chronological-order document converts
and its lines are passed through as-is in document order (timestamps
10s then 5.005s, not sorted). -/
theorem c4_document_order_witness :
    List.Forall₂ (fun p l => specLineOfParagraph p = some l) (paragraphsOf ooDoc)
      [(⟨1000⟩, "later"), (⟨500⟩, "earlier")] :=
  c4_document_order ooDoc "A" "T"
    ⟨[("ar", "A"), ("ti", "T")], [(⟨1000⟩, "later"), (⟨500⟩, "earlier")]⟩ rfl

/-- C7: when the paragraph sequence reaches a paragraph containing a
`span` descendant — every earlier paragraph converting normally — the
synthesis fails with the `UnsupportedFeature` error, whatever comes
after that paragraph and whether or not the offending paragraph even
has a `begin` attribute or text (the span check runs first), and no
lyric document is produced. -/
theorem c7_span_fail_fast (doc : XNode) (author nm : String) (pre : List XNode)
    (p : XNode) (post : List XNode) (hsplit : paragraphsOf doc = pre ++ p :: post)
    (hgood : ∀ q ∈ pre, ∃ l, specLineOfParagraph q = some l)
    (hspan : (p.selectFirst "span").isSome = true) :
    ttml_to_lrc doc author nm = .err "Syllable lyrics is not supported" := by
  cases hb : doc.selectFirst "body" with
  | none =>
    simp only [paragraphsOf, hb] at hsplit
    exact absurd hsplit.symm (List.append_ne_nil_of_right_ne_nil pre (by simp))
  | some body =>
    have hflat : (body.selectAll "div").flatMap (fun d => d.selectAll "p") =
        pre ++ p :: post := by
      simpa [paragraphsOf, hb] using hsplit
    simp only [ttml_to_lrc, hb]
    rw [processDivs_eq_flat, hflat, processPs_prefix_span pre p post hgood hspan]

/-- Document with a valid first paragraph, then a paragraph whose only
content is a timing `span` (it has no `begin` attribute and no text),
then another valid paragraph. -/
def spanDoc : XNode :=
  .elem "tt" [] [.elem "body" [] [.elem "div" [] [
    .elem "p" [("begin", "5.005")] [.text "ok"],
    .elem "p" [] [.elem "span" [("begin", "6.000")] [.text "word"]],
    .elem "p" [("begin", "7.000")] [.text "also ok"]]]]

/-- Witness for C7: on `spanDoc` the synthesis fails with the
unsupported-syllable error even though other valid paragraphs exist
before and after the offending one. -/
theorem c7_span_fail_fast_witness :
    ttml_to_lrc spanDoc "A" "T" = .err "Syllable lyrics is not supported" :=
  c7_span_fail_fast spanDoc "A" "T"
    [.elem "p" [("begin", "5.005")] [.text "ok"]]
    (.elem "p" [] [.elem "span" [("begin", "6.000")] [.text "word"]])
    [.elem "p" [("begin", "7.000")] [.text "also ok"]]
    rfl
    (fun q hq => by
      rw [List.mem_singleton] at hq
      exact ⟨(⟨500⟩, "ok"), by rw [hq]; rfl⟩)
    rfl

/-- Document with no `body` element anywhere. -/
def noBodyDoc : XNode := .elem "tt" [] [.elem "head" [] [.elem "metadata" [] []]]

/-- C2: on a parsed document with no `body` element the synthesizer
does not return the typed structure error the claim describes — the
embedded `unwrap` of the body lookup aborts with an unrecoverable
panic instead. -/
theorem c2_missing_body_panics :
    (∀ doc : XNode, ∀ author nm : String, doc.selectFirst "body" = none →
      ttml_to_lrc doc author nm = .fault unwrapNoneMsg) ∧
    noBodyDoc.selectFirst "body" = none ∧
    ttml_to_lrc noBodyDoc "A" "T" = .fault unwrapNoneMsg := by
  refine ⟨?_, rfl, rfl⟩
  intro doc author nm h
  simp [ttml_to_lrc, h]

/-- Witness for C2 at the concrete body-less document. -/
theorem c2_missing_body_panics_witness :
    ttml_to_lrc noBodyDoc "A" "T" = .fault unwrapNoneMsg :=
  c2_missing_body_panics.1 noBodyDoc "A" "T" rfl

/-- Paragraph with a `begin` attribute but no child nodes at all. -/
def pNoKids : XNode := .elem "p" [("begin", "5.005")] []

/-- Paragraph with a `begin` attribute whose first child is an element
rather than a text node. -/
def pElemChild : XNode := .elem "p" [("begin", "5.005")] [.elem "br" [] []]

/-- Document wrapping a single paragraph into body and div. -/
def docWithP (p : XNode) : XNode :=
  .elem "tt" [] [.elem "body" [] [.elem "div" [] [p]]]

/-- C3: a qualifying paragraph with no first child, or with a non-text
first child, does not produce the typed `missing text content` error
the claim describes — the embedded `unwrap` chain on the first child
aborts with an unrecoverable panic in both shapes (the `begin`
attribute is present, so it is the text read that dies). -/
theorem c3_missing_text_panics :
    pNoKids.attr "begin" = some "5.005" ∧
    pNoKids.childNodes.head? = none ∧
    ttml_to_lrc (docWithP pNoKids) "A" "T" = .fault unwrapNoneMsg ∧
    pElemChild.attr "begin" = some "5.005" ∧
    (pElemChild.childNodes.head?.map XNode.isElem) = some true ∧
    ttml_to_lrc (docWithP pElemChild) "A" "T" = .fault unwrapNoneMsg :=
  ⟨rfl, rfl, rfl, rfl, rfl, rfl⟩

/-- C8: on input that is not well-formed markup, neither conversion
path returns the typed `MalformedMarkup` error the claim describes —
both the raw-XML path (`nice_xml`) and the line-lyric path reach the
embedded `expect` on the failed parse and abort with an unrecoverable
panic. -/
theorem c8_malformed_markup_panics :
    Document.fromStr "abc" = none ∧
    nice_xml "abc" = .fault "Failed to parse xml" ∧
    lrcConversion "abc" "A" "T" = .fault "Failed to parse xml" :=
  ⟨rfl, rfl, rfl⟩

/-- Well-formed tag or attribute name: nonempty, made of name
characters. -/
def okName (cs : List Char) : Bool := !cs.isEmpty && cs.all isNameCh

mutual

/-- Well-formedness invariant of documents the modelled parser can
produce: names are proper, attribute values carry no quote, text runs
are nonempty and carry no `<`, and each element's children are either
nothing, one text node, or a list of elements. -/
def wfN : XNode → Bool
  | .text s => !s.data.isEmpty && s.data.all (fun c => c ≠ '<')
  | .elem t a cs =>
    okName t.data &&
    a.all (fun q => okName q.1.data && q.2.data.all (fun c => c ≠ '\"')) &&
    wfKids cs

/-- Child-list shapes the parser can produce. -/
def wfKids : List XNode → Bool
  | [] => true
  | [.text s] => !s.data.isEmpty && s.data.all (fun c => c ≠ '<')
  | cs => wfElems cs

/-- Every entry is a well-formed element. -/
def wfElems : List XNode → Bool
  | [] => true
  | c :: cs => c.isElem && wfN c && wfElems cs

end

mutual

/-- Fuel lower bound for parsing a node back. -/
def sizeN : XNode → Nat
  | .text _ => 1
  | .elem _ a cs => 2 + a.length + sizeKids cs

/-- Fuel lower bound for parsing a child list back. -/
def sizeKids : List XNode → Nat
  | [] => 1
  | c :: cs => 1 + sizeN c + sizeKids cs

end

theorem isNameCh_facts (c : Char) (h : isNameCh c = true) :
    isWsCh c = false ∧ c ≠ '<' ∧ c ≠ '>' ∧ c ≠ '/' ∧ c ≠ '=' ∧ c ≠ '\"' := by
  simp only [isNameCh, Bool.not_eq_true', Bool.or_eq_false_iff,
    decide_eq_false_iff_not] at h
  exact ⟨h.1.1.1.1.1, h.1.1.1.1.2, h.1.1.1.2, h.1.1.2, h.1.2, h.2⟩

theorem isWsCh_ne_lt (c : Char) (h : isWsCh c = true) : (c ≠ '<') = True := by
  simp only [isWsCh, Bool.or_eq_true, decide_eq_true_eq] at h
  rcases h with ((rfl | rfl) | rfl) | rfl <;> simp

theorem isWsCh_not_lt (c : Char) (h : isWsCh c = true) : (fun x => decide (x ≠ '<')) c = true := by
  have := isWsCh_ne_lt c h
  simp only [decide_eq_true_eq]
  simp_all

theorem spanP_prefix_all (p : Char → Bool) (cs : List Char) :
    (spanP p cs).1.all p = true := by
  induction cs with
  | nil => rfl
  | cons a as ih =>
    by_cases h : p a = true
    · simp [spanP, h, ih]
    · simp only [Bool.not_eq_true] at h
      simp [spanP, h]

theorem spanP_recombine (p : Char → Bool) (cs : List Char) :
    (spanP p cs).1 ++ (spanP p cs).2 = cs := by
  induction cs with
  | nil => rfl
  | cons a as ih =>
    by_cases h : p a = true
    · simp [spanP, h, ih]
    · simp only [Bool.not_eq_true] at h
      simp [spanP, h]

theorem dropWhile_not_head (p : Char → Bool) (c : Char) (cs : List Char)
    (h : p c = false) : (c :: cs).dropWhile p = c :: cs := by
  simp [List.dropWhile_cons, h]

theorem dropWhile_all (p : Char → Bool) (cs : List Char) (h : cs.all p = true) :
    cs.dropWhile p = [] := by
  induction cs with
  | nil => rfl
  | cons a as ih =>
    simp only [List.all_cons, Bool.and_eq_true] at h
    simp [List.dropWhile_cons, h.1, ih h.2]

theorem fmtAttrsL_len (a : List (String × String)) : a.length ≤ (fmtAttrsL a).length := by
  induction a with
  | nil => simp [fmtAttrsL]
  | cons q a ih =>
    simp only [fmtAttrsL, List.length_cons, List.length_append]
    omega

theorem sizeKids_pos (cs : List XNode) : 1 ≤ sizeKids cs := by
  cases cs
  · simp [sizeKids]
  · simp only [sizeKids]
    omega

theorem sizeN_pos (c : XNode) : 1 ≤ sizeN c := by
  cases c with
  | text s => simp [sizeN]
  | elem t a cs => simp [sizeN]; omega

theorem sizeKids_ge_len (cs : List XNode) : cs.length + 1 ≤ sizeKids cs := by
  induction cs with
  | nil => simp [sizeKids]
  | cons c cs ih =>
    have := sizeN_pos c
    simp only [sizeKids, List.length_cons]
    omega

theorem sizeN_le_sizeKids (cs : List XNode) (c : XNode) (h : c ∈ cs) :
    sizeN c + 2 ≤ sizeKids cs := by
  induction cs with
  | nil => cases h
  | cons d cs ih =>
    have hk := sizeKids_pos cs
    rcases List.mem_cons.mp h with rfl | hm
    · simp only [sizeKids]; omega
    · have := ih hm
      have := sizeN_pos d
      simp only [sizeKids]
      omega

theorem strEta (s : String) : String.mk s.data = s := rfl

theorem okName_facts (cs : List Char) (h : okName cs = true) :
    cs ≠ [] ∧ cs.all isNameCh = true := by
  simp only [okName, Bool.and_eq_true, Bool.not_eq_true'] at h
  exact ⟨by simpa using h.1, h.2⟩

theorem parseAttrs_fmt (a : List (String × String)) :
    ∀ (fuel : Nat) (c : Char) (rtail : List Char),
      a.all (fun q => okName q.1.data && q.2.data.all (fun x => x ≠ '\"')) = true →
      a.length + 1 ≤ fuel → (c = '/' ∨ c = '>') →
      parseAttrs fuel (fmtAttrsL a ++ c :: rtail) = some (a, c :: rtail) := by
  induction a with
  | nil =>
    intro fuel c rtail _ hfuel hc
    cases fuel with
    | zero => omega
    | succ g =>
      have hws : isWsCh c = false := by rcases hc with rfl | rfl <;> decide
      have hdw : (c :: rtail).dropWhile isWsCh = c :: rtail :=
        dropWhile_not_head _ _ _ hws
      rcases hc with rfl | rfl <;> simp [parseAttrs, fmtAttrsL, hdw]
  | cons q a ih =>
    intro fuel c rtail hwf hfuel hc
    obtain ⟨nm, v⟩ := q
    simp only [List.all_cons, Bool.and_eq_true] at hwf
    obtain ⟨⟨hnm, hv⟩, hrest⟩ := hwf
    obtain ⟨hne, hall⟩ := okName_facts nm.data hnm
    cases fuel with
    | zero => simp at hfuel
    | succ g =>
      obtain ⟨n0, ntl, hsplit⟩ : ∃ n0 ntl, nm.data = n0 :: ntl := by
        cases hd : nm.data with
        | nil => exact absurd hd hne
        | cons x xs => exact ⟨x, xs, rfl⟩
      have hn0 : isNameCh n0 = true := by
        rw [hsplit] at hall
        simp only [List.all_cons, Bool.and_eq_true] at hall
        exact hall.1
      obtain ⟨hn0ws, hn0lt, hn0gt, hn0sl, hn0eq, hn0q⟩ := isNameCh_facts n0 hn0
      have hspan : spanP isNameCh
          (nm.data ++ '=' :: '\"' :: (v.data ++ '\"' :: (fmtAttrsL a ++ c :: rtail))) =
          (nm.data, '=' :: '\"' :: (v.data ++ '\"' :: (fmtAttrsL a ++ c :: rtail))) :=
        spanP_append _ _ _ _ hall (by decide)
      have hvspan : spanP (fun x => x ≠ '\"')
          (v.data ++ '\"' :: (fmtAttrsL a ++ c :: rtail)) =
          (v.data, '\"' :: (fmtAttrsL a ++ c :: rtail)) :=
        spanP_append _ _ _ _ hv (by simp)
      have hih := ih g c rtail hrest (by simpa using hfuel) hc
      simp only [fmtAttrsL, List.cons_append, List.append_assoc, parseAttrs,
        List.dropWhile_cons]
      rw [hsplit]
      have : isWsCh ' ' = true := by decide
      simp only [this, if_true]
      rw [← hsplit]
      have hdw : (nm.data ++ '=' :: '\"' :: (v.data ++ '\"' :: (fmtAttrsL a ++ c :: rtail))).dropWhile isWsCh =
          nm.data ++ '=' :: '\"' :: (v.data ++ '\"' :: (fmtAttrsL a ++ c :: rtail)) := by
        rw [hsplit, List.cons_append, dropWhile_not_head _ _ _ hn0ws]
      rw [hdw]
      split
      · rename_i x heq
        rw [hsplit] at heq
        simp only [List.cons_append] at heq
        injection heq with h1 _
        exact absurd h1 hn0sl
      · rename_i x heq
        rw [hsplit] at heq
        simp only [List.cons_append] at heq
        injection heq with h1 _
        exact absurd h1 hn0gt
      · have hemp : nm.data.isEmpty = false := by rw [hsplit]; rfl
        simp only [hspan, hemp, Bool.false_eq_true, if_false, hvspan, hih]

/-- Shape of a formatted element-children run as the element-sequence
parser consumes it: element cores separated by whitespace runs, ending
in front of the closing tag. -/
inductive KidsChain : List XNode → List Char → List Char → Prop where
  | nil : ∀ rest, KidsChain [] rest ('<' :: '/' :: rest)
  | cons : ∀ (t : String) (a : List (String × String)) (k cs : List XNode)
      (sep input input' rest : List Char) (i : Nat),
      sep.all isWsCh = true →
      KidsChain cs rest input' →
      input = fmtCoreL i (.elem t a k) ++ (sep ++ input') →
      KidsChain (.elem t a k :: cs) rest input

theorem fmtCore_elem_eq (i : Nat) (t : String) (a : List (String × String))
    (k : List XNode) : ∃ tl, fmtCoreL i (.elem t a k) = '<' :: (t.data ++ tl) := by
  cases k with
  | nil => exact ⟨fmtAttrsL a ++ ['/', '>'], by simp [fmtCoreL]⟩
  | cons c k2 =>
    cases k2 with
    | nil =>
      cases c with
      | text s =>
        exact ⟨fmtAttrsL a ++ '>' :: (s.data ++ '<' :: '/' :: (t.data ++ ['>'])),
          by simp [fmtCoreL]⟩
      | elem t2 a2 k3 =>
        exact ⟨fmtAttrsL a ++ '>' :: (fmtKids (i + 2) [XNode.elem t2 a2 k3] ++
          '\n' :: (indentL i ++ '<' :: '/' :: (t.data ++ ['>']))), by simp [fmtCoreL]⟩
    | cons d k3 =>
      exact ⟨fmtAttrsL a ++ '>' :: (fmtKids (i + 2) (c :: d :: k3) ++
        '\n' :: (indentL i ++ '<' :: '/' :: (t.data ++ ['>']))), by simp [fmtCoreL]⟩

theorem kidsChain_head (cs : List XNode) (rest input : List Char)
    (h : KidsChain cs rest input) : ∃ tl, input = '<' :: tl := by
  cases h with
  | nil rest => exact ⟨'/' :: rest, rfl⟩
  | cons t a k cs2 sep input input' rest i hsep hch heq =>
    obtain ⟨tl, hf⟩ := fmtCore_elem_eq i t a k
    exact ⟨t.data ++ tl ++ (sep ++ input'), by simp [heq, hf]⟩

theorem all_ws_ne_lt (sep : List Char) (h : sep.all isWsCh = true) :
    sep.all (fun x => decide (x ≠ '<')) = true := by
  simp only [List.all_eq_true] at h ⊢
  intro c hc
  have := isWsCh_ne_lt c (h c hc)
  simp only [decide_eq_true_eq]
  simp_all

theorem indentL_ws (j : Nat) : (indentL j).all isWsCh = true := by
  simp only [indentL, List.all_eq_true]
  intro c hc
  rw [List.eq_of_mem_replicate hc]
  decide

theorem sep_nl_indent_ws (j : Nat) : ('\n' :: indentL j).all isWsCh = true := by
  simp only [List.all_cons, Bool.and_eq_true]
  exact ⟨by decide, indentL_ws j⟩

theorem spanP_ws_stop (sep tl : List Char) (h : sep.all isWsCh = true) :
    spanP (fun x => decide (x ≠ '<')) (sep ++ '<' :: tl) = (sep, '<' :: tl) :=
  spanP_append _ _ _ _ (all_ws_ne_lt sep h) (by decide)

theorem wfElems_mem (cs : List XNode) (h : wfElems cs = true) :
    ∀ c ∈ cs, XNode.isElem c = true ∧ wfN c = true := by
  induction cs with
  | nil => intro c hc; cases hc
  | cons d cs ih =>
    simp only [wfElems, Bool.and_eq_true] at h
    intro c hc
    rcases List.mem_cons.mp hc with rfl | hm
    · exact ⟨h.1.1, h.1.2⟩
    · exact ih h.2 c hm

theorem kidsChain_fmt (cs : List XNode) :
    ∀ (c : XNode), XNode.isElem c = true → (∀ d ∈ cs, XNode.isElem d = true) →
    ∀ (i i0 : Nat) (rest0 : List Char),
      KidsChain (c :: cs) rest0
        (fmtCoreL i c ++ (fmtKids i cs ++ ('\n' :: (indentL i0 ++ '<' :: '/' :: rest0)))) := by
  induction cs with
  | nil =>
    intro c hc _ i i0 rest0
    cases c with
    | text s => cases hc
    | elem t a k =>
      refine KidsChain.cons t a k [] ('\n' :: indentL i0) _ ('<' :: '/' :: rest0) rest0 i
        (sep_nl_indent_ws i0) (KidsChain.nil rest0) ?_
      simp [fmtKids]
  | cons c2 cs2 ih =>
    intro c hc hall i i0 rest0
    cases c with
    | text s => cases hc
    | elem t a k =>
      have hc2 : XNode.isElem c2 = true := hall c2 (by simp)
      have hall2 : ∀ d ∈ cs2, XNode.isElem d = true := fun d hd => hall d (by simp [hd])
      refine KidsChain.cons t a k (c2 :: cs2) ('\n' :: indentL i) _
        (fmtCoreL i c2 ++ (fmtKids i cs2 ++ ('\n' :: (indentL i0 ++ '<' :: '/' :: rest0))))
        rest0 i (sep_nl_indent_ws i) (ih c2 hc2 hall2 i i0 rest0) ?_
      simp [fmtKids]

/-- Round-trip property of single-element parsing at a given fuel. -/
def ParsesNode (fuel : Nat) : Prop :=
  ∀ (t : String) (a : List (String × String)) (k : List XNode),
    wfN (.elem t a k) = true → sizeN (.elem t a k) ≤ fuel →
    ∀ (i : Nat) (rest : List Char),
      parseNode fuel (fmtCoreL i (.elem t a k) ++ rest) = some (.elem t a k, rest)

theorem parseElems_chain (fpn : Nat) (hpn : ParsesNode fpn) (cs : List XNode) :
    ∀ (input rest : List Char) (faux : Nat),
      KidsChain cs rest input →
      (∀ c ∈ cs, wfN c = true ∧ sizeN c ≤ fpn) →
      cs.length + 1 ≤ faux →
      parseElemsAux (parseNode fpn) faux input = some (cs, '<' :: '/' :: rest) := by
  induction cs with
  | nil =>
    intro input rest faux hchain _ hlen
    cases hchain with
    | nil =>
      cases faux with
      | zero => omega
      | succ g => rfl
  | cons c cs ih =>
    intro input rest faux hchain hwf hlen
    cases hchain with
    | cons t a k cs2 sep input2 input' rest2 i hsep hch heq =>
      cases faux with
      | zero => simp at hlen
      | succ g =>
        obtain ⟨hwfc, hszc⟩ := hwf (.elem t a k) (by simp)
        have hwfcs : ∀ d ∈ cs, wfN d = true ∧ sizeN d ≤ fpn := fun d hd =>
          hwf d (by simp [hd])
        obtain ⟨tl0, hf⟩ := fmtCore_elem_eq i t a k
        have hokt : okName t.data = true := by
          simp only [wfN, Bool.and_eq_true] at hwfc
          exact hwfc.1.1
        obtain ⟨hne, hall⟩ := okName_facts t.data hokt
        obtain ⟨t0, ttl, hts⟩ : ∃ t0 ttl, t.data = t0 :: ttl := by
          cases hd : t.data with
          | nil => exact absurd hd hne
          | cons x xs => exact ⟨x, xs, rfl⟩
        have ht0 : isNameCh t0 = true := by
          rw [hts] at hall
          simp only [List.all_cons, Bool.and_eq_true] at hall
          exact hall.1
        obtain ⟨_, _, _, ht0sl, _, _⟩ := isNameCh_facts t0 ht0
        have hinput : input = '<' :: (t0 :: (ttl ++ tl0 ++ (sep ++ input'))) := by
          rw [heq, hf, hts]
          simp
        obtain ⟨tl2, hin'⟩ := kidsChain_head cs rest input' hch
        have hpn1 : parseNode fpn (fmtCoreL i (.elem t a k) ++ (sep ++ input')) =
            some (.elem t a k, sep ++ input') := by
          have hsz := hszc
          exact hpn t a k hwfc hsz i (sep ++ input')
        have hspan : spanP (fun x => decide (x ≠ '<')) (sep ++ input') = (sep, input') := by
          rw [hin']
          exact spanP_ws_stop sep tl2 hsep
        rw [hinput]
        simp only [parseElemsAux]
        split
        · rename_i x heq2
          injection heq2 with _ h2
          injection h2 with h2 _
          exact absurd h2 ht0sl
        · rw [← hinput, heq]
          rw [hpn1]
          simp only [hspan, hsep, if_true]
          rw [ih input' rest g hch hwfcs (by simpa using hlen)]
        · rename_i hn1 hn2
          exact absurd rfl (hn2 (t0 :: (ttl ++ tl0 ++ (sep ++ input'))))

theorem attrs_head_shape (a : List (String × String)) (c0 : Char) (ys0 : List Char)
    (hc0 : isNameCh c0 = false) :
    ∃ d dtl, fmtAttrsL a ++ c0 :: ys0 = d :: dtl ∧ isNameCh d = false := by
  cases a with
  | nil => exact ⟨c0, ys0, by simp [fmtAttrsL], hc0⟩
  | cons q as =>
    obtain ⟨nm, v⟩ := q
    exact ⟨' ', nm.data ++ '=' :: '\"' :: (v.data ++ '\"' :: (fmtAttrsL as ++ c0 :: ys0)),
      by simp [fmtAttrsL], by decide⟩

theorem spanP_name_stop (td : List Char) (htd : td.all isNameCh = true)
    (a : List (String × String)) (c0 : Char) (ys0 : List Char)
    (hc0 : isNameCh c0 = false) :
    spanP isNameCh (td ++ (fmtAttrsL a ++ c0 :: ys0)) = (td, fmtAttrsL a ++ c0 :: ys0) := by
  obtain ⟨d, dtl, hd, hdn⟩ := attrs_head_shape a c0 ys0 hc0
  rw [hd]
  exact spanP_append _ _ _ _ htd hdn

theorem parseNode_fmt_nil (fuel : Nat) (t : String) (a : List (String × String))
    (hokt : okName t.data = true)
    (hata : a.all (fun q => okName q.1.data && q.2.data.all (fun x => x ≠ '\"')) = true)
    (hfuel : a.length + 1 ≤ fuel) (i : Nat) (rest : List Char) :
    parseNode (fuel + 1) (fmtCoreL i (.elem t a []) ++ rest) = some (.elem t a [], rest) := by
  obtain ⟨hne, hall⟩ := okName_facts t.data hokt
  have hemp : t.data.isEmpty = false := by
    cases hd : t.data with
    | nil => exact absurd hd hne
    | cons x xs => rfl
  have hspan : spanP isNameCh (t.data ++ (fmtAttrsL a ++ '/' :: ('>' :: rest))) =
      (t.data, fmtAttrsL a ++ '/' :: ('>' :: rest)) :=
    spanP_name_stop t.data hall a '/' ('>' :: rest) (by decide)
  have hattrs := parseAttrs_fmt a fuel '/' ('>' :: rest) hata hfuel (Or.inl rfl)
  simp only [fmtCoreL, List.cons_append, List.append_assoc, List.nil_append, parseNode]
  simp only [hspan, hemp, Bool.false_eq_true, if_false, hattrs]

theorem parseNode_fmt_text (fuel : Nat) (t : String) (a : List (String × String))
    (s : String) (hokt : okName t.data = true)
    (hata : a.all (fun q => okName q.1.data && q.2.data.all (fun x => x ≠ '\"')) = true)
    (hsne : s.data ≠ []) (hslt : s.data.all (fun c => c ≠ '<') = true)
    (hfuel : a.length + 1 ≤ fuel) (i : Nat) (rest : List Char) :
    parseNode (fuel + 1) (fmtCoreL i (.elem t a [.text s]) ++ rest) =
      some (.elem t a [.text s], rest) := by
  obtain ⟨hne, hall⟩ := okName_facts t.data hokt
  have hemp : t.data.isEmpty = false := by
    cases hd : t.data with
    | nil => exact absurd hd hne
    | cons x xs => rfl
  have hsemp : s.data.isEmpty = false := by
    cases hd : s.data with
    | nil => exact absurd hd hsne
    | cons x xs => rfl
  have hspan : spanP isNameCh
      (t.data ++ (fmtAttrsL a ++ '>' :: (s.data ++ '<' :: '/' :: (t.data ++ '>' :: rest)))) =
      (t.data, fmtAttrsL a ++ '>' :: (s.data ++ '<' :: '/' :: (t.data ++ '>' :: rest))) :=
    spanP_name_stop t.data hall a '>' _ (by decide)
  have hattrs := parseAttrs_fmt a fuel '>' (s.data ++ '<' :: '/' :: (t.data ++ '>' :: rest))
    hata hfuel (Or.inr rfl)
  have hruns : spanP (fun x => decide (x ≠ '<'))
      (s.data ++ '<' :: ('/' :: (t.data ++ '>' :: rest))) =
      (s.data, '<' :: ('/' :: (t.data ++ '>' :: rest))) :=
    spanP_append _ _ _ _ hslt (by decide)
  have htg2 : spanP isNameCh (t.data ++ '>' :: rest) = (t.data, '>' :: rest) :=
    spanP_append _ _ _ _ hall (by decide)
  simp only [fmtCoreL, List.cons_append, List.append_assoc, List.nil_append, parseNode]
  simp only [hspan, hemp, Bool.false_eq_true, if_false, hattrs, hruns, htg2, hsemp]
  simp [strEta]

theorem parseNode_fmt_block (fuel : Nat) (t : String) (a : List (String × String))
    (k1 : XNode) (k2 : List XNode) (hpn : ParsesNode fuel)
    (hokt : okName t.data = true)
    (hata : a.all (fun q => okName q.1.data && q.2.data.all (fun x => x ≠ '\"')) = true)
    (helems : wfElems (k1 :: k2) = true)
    (hfuelA : a.length + 1 ≤ fuel)
    (hfuelK : (k1 :: k2).length + 1 ≤ fuel)
    (hsizes : ∀ c ∈ k1 :: k2, sizeN c ≤ fuel)
    (i : Nat) (rest : List Char)
    (hfmt : fmtCoreL i (.elem t a (k1 :: k2)) =
      '<' :: t.data ++ fmtAttrsL a ++ '>' :: fmtKids (i + 2) (k1 :: k2) ++
        '\n' :: indentL i ++ '<' :: '/' :: t.data ++ ['>']) :
    parseNode (fuel + 1) (fmtCoreL i (.elem t a (k1 :: k2)) ++ rest) =
      some (.elem t a (k1 :: k2), rest) := by
  obtain ⟨hne, hall⟩ := okName_facts t.data hokt
  have hemp : t.data.isEmpty = false := by
    cases hd : t.data with
    | nil => exact absurd hd hne
    | cons x xs => rfl
  obtain ⟨hk1elem, hk1wf⟩ := wfElems_mem (k1 :: k2) helems k1 (by simp)
  obtain ⟨t1, a1, kk1, hk1⟩ : ∃ t1 a1 kk1, k1 = XNode.elem t1 a1 kk1 := by
    cases k1 with
    | text s => cases hk1elem
    | elem x y z => exact ⟨x, y, z, rfl⟩
  subst hk1
  have hok1 : okName t1.data = true := by
    simp only [wfN, Bool.and_eq_true] at hk1wf
    exact hk1wf.1.1
  obtain ⟨hne1, hall1⟩ := okName_facts t1.data hok1
  obtain ⟨t10, t1tl, hts1⟩ : ∃ x xs, t1.data = x :: xs := by
    cases hd : t1.data with
    | nil => exact absurd hd hne1
    | cons x xs => exact ⟨x, xs, rfl⟩
  have ht10 : isNameCh t10 = true := by
    rw [hts1] at hall1
    simp only [List.all_cons, Bool.and_eq_true] at hall1
    exact hall1.1
  obtain ⟨_, _, _, ht10sl, _, _⟩ := isNameCh_facts t10 ht10
  -- the closing-tag remainder and the children run
  have hchain := kidsChain_fmt k2 (XNode.elem t1 a1 kk1) rfl
    (fun d hd => (wfElems_mem _ helems d (by simp [hd])).1) (i + 2) i
    (t.data ++ '>' :: rest)
  have hparse := parseElems_chain fuel hpn (XNode.elem t1 a1 kk1 :: k2) _ _ fuel hchain
    (fun c hc => ⟨(wfElems_mem _ helems c hc).2, hsizes c hc⟩) hfuelK
  -- structural rewrites on the formatted input
  have hspan : spanP isNameCh (t.data ++ (fmtAttrsL a ++ '>' ::
      (fmtKids (i + 2) (XNode.elem t1 a1 kk1 :: k2) ++
        ('\n' :: (indentL i ++ '<' :: '/' :: (t.data ++ '>' :: rest)))))) =
      (t.data, fmtAttrsL a ++ '>' ::
      (fmtKids (i + 2) (XNode.elem t1 a1 kk1 :: k2) ++
        ('\n' :: (indentL i ++ '<' :: '/' :: (t.data ++ '>' :: rest))))) :=
    spanP_name_stop t.data hall a '>' _ (by decide)
  have hattrs := parseAttrs_fmt a fuel '>'
    (fmtKids (i + 2) (XNode.elem t1 a1 kk1 :: k2) ++
      ('\n' :: (indentL i ++ '<' :: '/' :: (t.data ++ '>' :: rest))))
    hata hfuelA (Or.inr rfl)
  obtain ⟨tl0, hcore1⟩ := fmtCore_elem_eq (i + 2) t1 a1 kk1
  have hr3 : fmtKids (i + 2) (XNode.elem t1 a1 kk1 :: k2) ++
      ('\n' :: (indentL i ++ '<' :: '/' :: (t.data ++ '>' :: rest))) =
      ('\n' :: indentL (i + 2)) ++
        (fmtCoreL (i + 2) (XNode.elem t1 a1 kk1) ++
          (fmtKids (i + 2) k2 ++ ('\n' :: (indentL i ++ '<' :: '/' :: (t.data ++ '>' :: rest))))) := by
    simp [fmtKids]
  have hAhead : fmtCoreL (i + 2) (XNode.elem t1 a1 kk1) ++
      (fmtKids (i + 2) k2 ++ ('\n' :: (indentL i ++ '<' :: '/' :: (t.data ++ '>' :: rest)))) =
      '<' :: (t10 :: (t1tl ++ tl0 ++
        (fmtKids (i + 2) k2 ++ ('\n' :: (indentL i ++ '<' :: '/' :: (t.data ++ '>' :: rest)))))) := by
    rw [hcore1, hts1]
    simp
  have hrun : spanP (fun x => decide (x ≠ '<'))
      (fmtKids (i + 2) (XNode.elem t1 a1 kk1 :: k2) ++
        ('\n' :: (indentL i ++ '<' :: '/' :: (t.data ++ '>' :: rest)))) =
      ('\n' :: indentL (i + 2),
        fmtCoreL (i + 2) (XNode.elem t1 a1 kk1) ++
          (fmtKids (i + 2) k2 ++ ('\n' :: (indentL i ++ '<' :: '/' :: (t.data ++ '>' :: rest))))) := by
    rw [hr3, hAhead]
    exact spanP_ws_stop _ _ (sep_nl_indent_ws (i + 2))
  have htg2 : spanP isNameCh (t.data ++ '>' :: rest) = (t.data, '>' :: rest) :=
    spanP_append _ _ _ _ hall (by decide)
  rw [hfmt]
  simp only [List.cons_append, List.append_assoc, List.nil_append, parseNode]
  simp only [hspan, hemp, Bool.false_eq_true, if_false, hattrs, hrun]
  rw [hAhead]
  split
  · rename_i x heq2
    injection heq2 with _ h2
    injection h2 with h2 _
    exact absurd h2 ht10sl
  · rw [← hAhead]
    simp only [sep_nl_indent_ws (i + 2), if_true, hparse]
    simp only [htg2]
    simp [strEta]
  · rename_i hn1 hn2
    exact absurd rfl (hn2 _)

theorem list_ne_nil_of_isEmpty_false {xs : List Char} (h : xs.isEmpty = false) :
    xs ≠ [] := by
  cases xs with
  | nil => cases h
  | cons x xs => simp

theorem parsesNode_all (fuel : Nat) : ParsesNode fuel := by
  induction fuel with
  | zero =>
    intro t a k hwf hsz
    exfalso
    have := sizeKids_pos k
    simp only [sizeN] at hsz
    omega
  | succ fuel ih =>
    intro t a k hwf hsz i rest
    have hwf2 := hwf
    simp only [wfN, Bool.and_eq_true] at hwf2
    obtain ⟨⟨hokt, hata⟩, hkids⟩ := hwf2
    have hsz2 : 2 + a.length + sizeKids k ≤ fuel + 1 := by
      simpa only [sizeN] using hsz
    cases k with
    | nil =>
      have hb : a.length + 1 ≤ fuel := by
        simp only [sizeKids] at hsz2
        omega
      exact parseNode_fmt_nil fuel t a hokt hata hb i rest
    | cons c1 k2 =>
      cases k2 with
      | nil =>
        cases c1 with
        | text s =>
          simp only [wfKids, Bool.and_eq_true, Bool.not_eq_true'] at hkids
          have hb : a.length + 1 ≤ fuel := by
            simp only [sizeKids, sizeN] at hsz2
            omega
          exact parseNode_fmt_text fuel t a s hokt hata
            (list_ne_nil_of_isEmpty_false hkids.1) hkids.2 hb i rest
        | elem x y z =>
          have helems : wfElems [XNode.elem x y z] = true := by
            simpa only [wfKids] using hkids
          have hszc : sizeN (XNode.elem x y z) ≤ fuel := by
            have := sizeN_le_sizeKids [XNode.elem x y z] (XNode.elem x y z) (by simp)
            omega
          refine parseNode_fmt_block fuel t a (XNode.elem x y z) [] ih hokt hata helems
            ?_ ?_ ?_ i rest rfl
          · have := sizeKids_pos [XNode.elem x y z]
            have := sizeN_pos (XNode.elem x y z)
            simp only [sizeKids] at hsz2
            omega
          · have := sizeN_pos (XNode.elem x y z)
            simp only [sizeKids, List.length_cons, List.length_nil] at hsz2 ⊢
            omega
          · intro c hc
            rw [List.mem_singleton] at hc
            subst hc
            exact hszc
      | cons c2 k3 =>
        have helems : wfElems (c1 :: c2 :: k3) = true := by
          simpa only [wfKids] using hkids
        have hlen : (c1 :: c2 :: k3).length + 1 ≤ fuel := by
          have := sizeKids_ge_len (c1 :: c2 :: k3)
          omega
        have hfa : a.length + 1 ≤ fuel := by
          have := sizeKids_pos (c1 :: c2 :: k3)
          omega
        refine parseNode_fmt_block fuel t a c1 (c2 :: k3) ih hokt hata helems hfa hlen
          ?_ i rest (by simp [fmtCoreL])
        intro c hc
        have := sizeN_le_sizeKids (c1 :: c2 :: k3) c hc
        omega

theorem wfKids_nil : wfKids [] = true := by simp [wfKids]

theorem wfElems_nil : wfElems [] = true := by simp [wfElems]

theorem parseAttrs_wf :
    ∀ (fuel : Nat) (cs : List Char) (as : List (String × String)) (r : List Char),
      parseAttrs fuel cs = some (as, r) →
      as.all (fun q => okName q.1.data && q.2.data.all (fun x => x ≠ '\"')) = true := by
  intro fuel
  induction fuel with
  | zero => intro cs as r h; cases h
  | succ g ih =>
    intro cs as r h
    simp only [parseAttrs] at h
    split at h
    · simp only [Option.some.injEq, Prod.mk.injEq] at h
      obtain ⟨rfl, rfl⟩ := h
      rfl
    · simp only [Option.some.injEq, Prod.mk.injEq] at h
      obtain ⟨rfl, rfl⟩ := h
      rfl
    · split at h
      · cases h
      · rename_i hemp
        split at h
        · split at h
          · split at h
            · rename_i as2 r5 hrec
              simp only [Option.some.injEq, Prod.mk.injEq] at h
              obtain ⟨rfl, rfl⟩ := h
              simp only [List.all_cons, Bool.and_eq_true, strData_mk]
              refine ⟨⟨?_, ?_⟩, ih _ _ _ hrec⟩
              · simp only [okName, Bool.and_eq_true, Bool.not_eq_true']
                refine ⟨?_, spanP_prefix_all _ _⟩
                simp only [Bool.not_eq_true] at hemp
                exact hemp
              · exact spanP_prefix_all _ _
            · cases h
          · cases h
        · cases h

theorem wfElems_wfKids (ns : List XNode) (h : wfElems ns = true) : wfKids ns = true := by
  cases ns with
  | nil => exact wfKids_nil
  | cons c ns2 =>
    cases ns2 with
    | nil =>
      have hc := wfElems_mem [c] h c (by simp)
      cases c with
      | text s => cases hc.1
      | elem x y z => simpa only [wfKids] using h
    | cons d ns3 => simpa only [wfKids] using h

theorem parseElemsAux_wf (pn : List Char → Option (XNode × List Char))
    (hpn : ∀ cs n r, pn cs = some (n, r) → XNode.isElem n = true ∧ wfN n = true) :
    ∀ (faux : Nat) (cs : List Char) (ns : List XNode) (r : List Char),
      parseElemsAux pn faux cs = some (ns, r) → wfElems ns = true := by
  intro faux
  induction faux with
  | zero => intro cs ns r h; cases h
  | succ g ih =>
    intro cs ns r h
    simp only [parseElemsAux] at h
    split at h
    · simp only [Option.some.injEq, Prod.mk.injEq] at h
      obtain ⟨rfl, rfl⟩ := h
      exact wfElems_nil
    · split at h
      · cases h
      · rename_i n r1 hpn0
        split at h
        · split at h
          · rename_i ns2 r3 hrec
            simp only [Option.some.injEq, Prod.mk.injEq] at h
            obtain ⟨rfl, rfl⟩ := h
            have hn := hpn _ _ _ hpn0
            simp only [wfElems, Bool.and_eq_true]
            exact ⟨⟨hn.1, hn.2⟩, ih _ _ _ hrec⟩
          · cases h
        · cases h
    · cases h

theorem parseNode_wf :
    ∀ (fuel : Nat) (cs : List Char) (n : XNode) (r : List Char),
      parseNode fuel cs = some (n, r) → XNode.isElem n = true ∧ wfN n = true := by
  intro fuel
  induction fuel with
  | zero => intro cs n r h; cases h
  | succ g ih =>
    intro cs n r h
    simp only [parseNode] at h
    split at h
    · rename_i cs1
      split at h
      · cases h
      · rename_i hemp
        rw [Bool.not_eq_true] at hemp
        have hokt : okName (spanP isNameCh cs1).1 = true := by
          simp only [okName, Bool.and_eq_true, Bool.not_eq_true']
          exact ⟨hemp, spanP_prefix_all _ _⟩
        split at h
        · cases h
        · rename_i as r2 hattrs
          have has := parseAttrs_wf g _ _ _ hattrs
          split at h
          · simp only [Option.some.injEq, Prod.mk.injEq] at h
            obtain ⟨rfl, rfl⟩ := h
            refine ⟨rfl, ?_⟩
            simp only [wfN, Bool.and_eq_true, strData_mk]
            exact ⟨⟨hokt, has⟩, wfKids_nil⟩
          · split at h
            · split at h
              · split at h
                · split at h
                  · simp only [Option.some.injEq, Prod.mk.injEq] at h
                    obtain ⟨rfl, rfl⟩ := h
                    refine ⟨rfl, ?_⟩
                    simp only [wfN, Bool.and_eq_true, strData_mk]
                    exact ⟨⟨hokt, has⟩, wfKids_nil⟩
                  · rename_i hrunne
                    rw [Bool.not_eq_true] at hrunne
                    simp only [Option.some.injEq, Prod.mk.injEq] at h
                    obtain ⟨rfl, rfl⟩ := h
                    refine ⟨rfl, ?_⟩
                    simp only [wfN, Bool.and_eq_true, strData_mk]
                    refine ⟨⟨hokt, has⟩, ?_⟩
                    simp only [wfKids, Bool.and_eq_true, Bool.not_eq_true', strData_mk]
                    exact ⟨hrunne, spanP_prefix_all _ _⟩
                · cases h
              · cases h
            · split at h
              · split at h
                · rename_i ns r4 helems
                  split at h
                  · split at h
                    · split at h
                      · simp only [Option.some.injEq, Prod.mk.injEq] at h
                        obtain ⟨rfl, rfl⟩ := h
                        refine ⟨rfl, ?_⟩
                        simp only [wfN, Bool.and_eq_true, strData_mk]
                        exact ⟨⟨hokt, has⟩,
                          wfElems_wfKids ns (parseElemsAux_wf _ (ih) _ _ _ _ helems)⟩
                      · cases h
                    · cases h
                  · cases h
                · cases h
              · cases h
            · cases h
          · cases h
    · cases h

mutual

theorem sizeN_le_fmt (d : XNode) (i : Nat) : sizeN d ≤ (fmtCoreL i d).length + 1 := by
  cases d with
  | text s => simp [sizeN, fmtCoreL]
  | elem t a cs =>
    have hfa := fmtAttrsL_len a
    cases cs with
    | nil =>
      simp only [sizeN, sizeKids, fmtCoreL, List.length_cons, List.length_append]
      omega
    | cons c1 k2 =>
      cases k2 with
      | nil =>
        cases c1 with
        | text s =>
          simp only [sizeN, sizeKids, fmtCoreL, List.length_cons, List.length_append]
          omega
        | elem t2 a2 kk =>
          have hk := sizeKids_le_fmt [XNode.elem t2 a2 kk] (i + 2) (by omega)
          simp only [sizeN, fmtCoreL, List.length_cons, List.length_append]
          omega
      | cons c2 k3 =>
        have hk := sizeKids_le_fmt (c1 :: c2 :: k3) (i + 2) (by omega)
        have hfmt : fmtCoreL i (.elem t a (c1 :: c2 :: k3)) =
            '<' :: t.data ++ fmtAttrsL a ++ '>' :: fmtKids (i + 2) (c1 :: c2 :: k3) ++
              '\n' :: indentL i ++ '<' :: '/' :: t.data ++ ['>'] := by
          simp [fmtCoreL]
        rw [hfmt]
        simp only [sizeN, List.length_cons, List.length_append]
        omega

theorem sizeKids_le_fmt (cs : List XNode) (i : Nat) (hi : 1 ≤ i) :
    sizeKids cs ≤ (fmtKids i cs).length + 1 := by
  cases cs with
  | nil => simp [sizeKids, fmtKids]
  | cons c cs2 =>
    have h1 := sizeN_le_fmt c i
    have h2 := sizeKids_le_fmt cs2 i hi
    simp only [sizeKids, fmtKids, List.length_cons, List.length_append, indentL,
      List.length_replicate]
    omega

end

theorem fromStr_wf (s : String) (d : XNode) (h : Document.fromStr s = some d) :
    XNode.isElem d = true ∧ wfN d = true := by
  simp only [Document.fromStr] at h
  split at h
  · rename_i n r hpn
    split at h
    · simp only [Option.some.injEq] at h
      subst h
      exact parseNode_wf _ _ _ _ hpn
    · cases h
  · cases h

theorem fromStr_pretty (d : XNode) (he : XNode.isElem d = true) (hwf : wfN d = true) :
    Document.fromStr (pretty d) = some d := by
  obtain ⟨t, a, k, rfl⟩ : ∃ t a k, d = XNode.elem t a k := by
    cases d with
    | text s => cases he
    | elem x y z => exact ⟨x, y, z, rfl⟩
  obtain ⟨tl, hcore⟩ := fmtCore_elem_eq 0 t a k
  have hdata : (pretty (XNode.elem t a k)).data =
      fmtCoreL 0 (XNode.elem t a k) ++ ['\n', '\n'] := rfl
  simp only [Document.fromStr, hdata]
  have hdw : (fmtCoreL 0 (XNode.elem t a k) ++ ['\n', '\n']).dropWhile isWsCh =
      fmtCoreL 0 (XNode.elem t a k) ++ ['\n', '\n'] := by
    rw [hcore, List.cons_append]
    exact dropWhile_not_head _ _ _ (by decide)
  rw [hdw]
  have hsz : sizeN (XNode.elem t a k) ≤
      (fmtCoreL 0 (XNode.elem t a k) ++ ['\n', '\n']).length + 1 := by
    have := sizeN_le_fmt (XNode.elem t a k) 0
    simp only [List.length_append]
    omega
  have hparse := parsesNode_all
    ((fmtCoreL 0 (XNode.elem t a k) ++ ['\n', '\n']).length + 1) t a k hwf hsz 0
    ['\n', '\n']
  rw [hparse]
  have hnl : isWsCh '\n' = true := by decide
  simp [hnl]

/-- C9: the canonical formatter is idempotent — for every string the
modelled parser accepts, formatting the parsed document, re-parsing
the formatted text and formatting again yields the same text as the
first pass (the re-parse returns the very same document). -/
theorem c9_format_idempotent (s : String) (d : XNode)
    (h : Document.fromStr s = some d) :
    Option.map pretty (Document.fromStr (pretty d)) = some (pretty d) := by
  obtain ⟨he, hwf⟩ := fromStr_wf s d h
  rw [fromStr_pretty d he hwf, Option.map_some']

/-- Markup string used to witness C9. -/
def sampleXml : String := "<tt><body><div><p begin=\"5.005\">Hello</p></div></body></tt>"

/-- Parse of `sampleXml`. -/
def sampleParsed : XNode :=
  .elem "tt" [] [.elem "body" [] [.elem "div" [] [
    .elem "p" [("begin", "5.005")] [.text "Hello"]]]]

/-- Witness for C9 at a concrete document. -/
theorem c9_format_idempotent_witness :
    Option.map pretty (Document.fromStr (pretty sampleParsed)) = some (pretty sampleParsed) :=
  c9_format_idempotent sampleXml sampleParsed rfl
